import Mathlib

/-!
Shallow embedding of the intersesh/aes repository (Go) in Lean 4.

The Go sources embedded here are, in order:
- field.go: GF(2^8) helpers bitsLen (bits.Len), degree, Mod, Xtime, Multiply,
  DotProduct, Exp2;
- aes.go (cipher core): parse, addRoundKey, subBytes, subBytesInverse,
  shiftRows, shiftRowsInverse, mixColumns, SubstituteWord, matrixBlock,
  RotateWord, Rcon, Words, Cipher, NewCipher, Encrypt, Decrypt;
- aes/key.go: NewKey, expandKey;
- blockcipher: XOR, PadBytes, Blockify, LittleEndian, ECB/CBC/CTR modes.

Bytes and 32-bit words are embedded as Nat with explicit masking (% 256,
&&& 255, % 2^32) exactly where the Go code truncates.  Go loops with a
data-dependent bound are embedded as folds over List.range of the same
bound; the one Go loop without a structural bound (Mod) gets an explicit
fuel parameter (modFuel) because the Go loop diverges for divisor = 0.
-/

namespace AESGo

/-- Embedding of Go bits.Len via repeated halving; the fuel argument is
always instantiated with the number itself, which bounds the number of
halvings. -/
def bitsLenAux : Nat → Nat → Nat
  | 0, _ => 0
  | fuel+1, n => if n = 0 then 0 else bitsLenAux fuel (n / 2) + 1

/-- bits.Len: the number of bits required to represent n; 0 for n = 0. -/
def bitsLen (n : Nat) : Nat := bitsLenAux n n

/-- degree from field.go: -1 for 0, otherwise bits.Len of the argument. -/
def degree (a : Nat) : Int := if a = 0 then -1 else (bitsLen a : Int)

/-- The loop of Mod from field.go with explicit fuel.  Each iteration XORs
the shifted divisor into the remainder while the loop condition
(remainder nonzero and degree remainder >= degree divisor) holds; none is
returned when fuel runs out with the condition still true, which models
the Go loop not having terminated yet. -/
def modFuel : Nat → Nat → Nat → Option Nat
  | 0, remainder, divisor =>
    if remainder ≠ 0 ∧ degree divisor ≤ degree remainder then none else some remainder
  | fuel+1, remainder, divisor =>
    if remainder ≠ 0 ∧ degree divisor ≤ degree remainder then
      modFuel fuel (remainder ^^^ (divisor <<< (degree remainder - degree divisor).toNat)) divisor
    else some remainder

/-- Mod from field.go: GF(2) polynomial remainder.  The fuel dividend+1 is
sufficient for every terminating run of the Go loop (the bit length of the
remainder strictly decreases each iteration). -/
def Mod (dividend divisor : Nat) : Nat :=
  (modFuel (dividend + 1) dividend divisor).getD dividend

/-- Exp2 from field.go. -/
def Exp2 (i : Nat) : Nat := 1 <<< i

/-- poly: the AES reducing polynomial x^8 + x^4 + x^3 + x + 1 = 0x11B. -/
def poly : Nat := (1 <<< 8) ||| (1 <<< 4) ||| (1 <<< 3) ||| (1 <<< 1) ||| (1 <<< 0)

/-- Xtime from field.go: multiply by x in GF(2^8).  The Go code shifts the
byte left (wrapping mod 256), XORs in poly when bit 7 was set, and masks
the result to a byte. -/
def Xtime (a : Nat) : Nat :=
  let temp := (a <<< 1) % 256
  let temp2 := if a &&& 128 > 0 then temp ^^^ poly else temp
  temp2 &&& 255

/-- Multiply from field.go: Russian-peasant product over the bit positions
of b, carried out as the Go for-loop over i < bits.Len(b) with state
(reduction, intermediateXtime). -/
def Multiply (a b : Nat) : Nat :=
  ((List.range (bitsLen b)).foldl
    (fun st i => (if b &&& Exp2 i > 0 then st.1 ^^^ st.2 else st.1, Xtime st.2))
    (0, a)).1

/-- DotProduct from field.go: XOR of pointwise Multiply. -/
def DotProduct (a b : List Nat) : Nat :=
  (List.range a.length).foldl (fun out i => out ^^^ Multiply (a.getD i 0) (b.getD i 0)) 0

/-- Modelled from the spec: the forward S-box constant (a 256-byte table
reproducing FIPS-197 Fig. 7).  The table constant itself is not present
under src/; the spec fixes it as the FIPS-197 forward substitution table. -/
def sbox : List Nat :=
  [0x63, 0x7c, 0x77, 0x7b, 0xf2, 0x6b, 0x6f, 0xc5, 0x30, 0x01, 0x67, 0x2b, 0xfe, 0xd7, 0xab, 0x76,
   0xca, 0x82, 0xc9, 0x7d, 0xfa, 0x59, 0x47, 0xf0, 0xad, 0xd4, 0xa2, 0xaf, 0x9c, 0xa4, 0x72, 0xc0,
   0xb7, 0xfd, 0x93, 0x26, 0x36, 0x3f, 0xf7, 0xcc, 0x34, 0xa5, 0xe5, 0xf1, 0x71, 0xd8, 0x31, 0x15,
   0x04, 0xc7, 0x23, 0xc3, 0x18, 0x96, 0x05, 0x9a, 0x07, 0x12, 0x80, 0xe2, 0xeb, 0x27, 0xb2, 0x75,
   0x09, 0x83, 0x2c, 0x1a, 0x1b, 0x6e, 0x5a, 0xa0, 0x52, 0x3b, 0xd6, 0xb3, 0x29, 0xe3, 0x2f, 0x84,
   0x53, 0xd1, 0x00, 0xed, 0x20, 0xfc, 0xb1, 0x5b, 0x6a, 0xcb, 0xbe, 0x39, 0x4a, 0x4c, 0x58, 0xcf,
   0xd0, 0xef, 0xaa, 0xfb, 0x43, 0x4d, 0x33, 0x85, 0x45, 0xf9, 0x02, 0x7f, 0x50, 0x3c, 0x9f, 0xa8,
   0x51, 0xa3, 0x40, 0x8f, 0x92, 0x9d, 0x38, 0xf5, 0xbc, 0xb6, 0xda, 0x21, 0x10, 0xff, 0xf3, 0xd2,
   0xcd, 0x0c, 0x13, 0xec, 0x5f, 0x97, 0x44, 0x17, 0xc4, 0xa7, 0x7e, 0x3d, 0x64, 0x5d, 0x19, 0x73,
   0x60, 0x81, 0x4f, 0xdc, 0x22, 0x2a, 0x90, 0x88, 0x46, 0xee, 0xb8, 0x14, 0xde, 0x5e, 0x0b, 0xdb,
   0xe0, 0x32, 0x3a, 0x0a, 0x49, 0x06, 0x24, 0x5c, 0xc2, 0xd3, 0xac, 0x62, 0x91, 0x95, 0xe4, 0x79,
   0xe7, 0xc8, 0x37, 0x6d, 0x8d, 0xd5, 0x4e, 0xa9, 0x6c, 0x56, 0xf4, 0xea, 0x65, 0x7a, 0xae, 0x08,
   0xba, 0x78, 0x25, 0x2e, 0x1c, 0xa6, 0xb4, 0xc6, 0xe8, 0xdd, 0x74, 0x1f, 0x4b, 0xbd, 0x8b, 0x8a,
   0x70, 0x3e, 0xb5, 0x66, 0x48, 0x03, 0xf6, 0x0e, 0x61, 0x35, 0x57, 0xb9, 0x86, 0xc1, 0x1d, 0x9e,
   0xe1, 0xf8, 0x98, 0x11, 0x69, 0xd9, 0x8e, 0x94, 0x9b, 0x1e, 0x87, 0xe9, 0xce, 0x55, 0x28, 0xdf,
   0x8c, 0xa1, 0x89, 0x0d, 0xbf, 0xe6, 0x42, 0x68, 0x41, 0x99, 0x2d, 0x0f, 0xb0, 0x54, 0xbb, 0x16]

/-- Modelled from the spec: the inverse S-box constant (FIPS-197 Fig. 14),
likewise not present under src/. -/
def sboxInverse : List Nat :=
  [0x52, 0x09, 0x6a, 0xd5, 0x30, 0x36, 0xa5, 0x38, 0xbf, 0x40, 0xa3, 0x9e, 0x81, 0xf3, 0xd7, 0xfb,
   0x7c, 0xe3, 0x39, 0x82, 0x9b, 0x2f, 0xff, 0x87, 0x34, 0x8e, 0x43, 0x44, 0xc4, 0xde, 0xe9, 0xcb,
   0x54, 0x7b, 0x94, 0x32, 0xa6, 0xc2, 0x23, 0x3d, 0xee, 0x4c, 0x95, 0x0b, 0x42, 0xfa, 0xc3, 0x4e,
   0x08, 0x2e, 0xa1, 0x66, 0x28, 0xd9, 0x24, 0xb2, 0x76, 0x5b, 0xa2, 0x49, 0x6d, 0x8b, 0xd1, 0x25,
   0x72, 0xf8, 0xf6, 0x64, 0x86, 0x68, 0x98, 0x16, 0xd4, 0xa4, 0x5c, 0xcc, 0x5d, 0x65, 0xb6, 0x92,
   0x6c, 0x70, 0x48, 0x50, 0xfd, 0xed, 0xb9, 0xda, 0x5e, 0x15, 0x46, 0x57, 0xa7, 0x8d, 0x9d, 0x84,
   0x90, 0xd8, 0xab, 0x00, 0x8c, 0xbc, 0xd3, 0x0a, 0xf7, 0xe4, 0x58, 0x05, 0xb8, 0xb3, 0x45, 0x06,
   0xd0, 0x2c, 0x1e, 0x8f, 0xca, 0x3f, 0x0f, 0x02, 0xc1, 0xaf, 0xbd, 0x03, 0x01, 0x13, 0x8a, 0x6b,
   0x3a, 0x91, 0x11, 0x41, 0x4f, 0x67, 0xdc, 0xea, 0x97, 0xf2, 0xcf, 0xce, 0xf0, 0xb4, 0xe6, 0x73,
   0x96, 0xac, 0x74, 0x22, 0xe7, 0xad, 0x35, 0x85, 0xe2, 0xf9, 0x37, 0xe8, 0x1c, 0x75, 0xdf, 0x6e,
   0x47, 0xf1, 0x1a, 0x71, 0x1d, 0x29, 0xc5, 0x89, 0x6f, 0xb7, 0x62, 0x0e, 0xaa, 0x18, 0xbe, 0x1b,
   0xfc, 0x56, 0x3e, 0x4b, 0xc6, 0xd2, 0x79, 0x20, 0x9a, 0xdb, 0xc0, 0xfe, 0x78, 0xcd, 0x5a, 0xf4,
   0x1f, 0xdd, 0xa8, 0x33, 0x88, 0x07, 0xc7, 0x31, 0xb1, 0x12, 0x10, 0x59, 0x27, 0x80, 0xec, 0x5f,
   0x60, 0x51, 0x7f, 0xa9, 0x19, 0xb5, 0x4a, 0x0d, 0x2d, 0xe5, 0x7a, 0x9f, 0x93, 0xc9, 0x9c, 0xef,
   0xa0, 0xe0, 0x3b, 0x4d, 0xae, 0x2a, 0xf5, 0xb0, 0xc8, 0xeb, 0xbb, 0x3c, 0x83, 0x53, 0x99, 0x61,
   0x17, 0x2b, 0x04, 0x7e, 0xba, 0x77, 0xd6, 0x26, 0xe1, 0x69, 0x14, 0x63, 0x55, 0x21, 0x0c, 0x7d]

/-- Modelled from the spec: the forward MixColumns matrix rows
(02,03,01,01), (01,02,03,01), (01,01,02,03), (03,01,01,02); the constant
is referenced by aes.go but not present under src/. -/
def mixColumnPolynomials : List (List Nat) :=
  [[2, 3, 1, 1], [1, 2, 3, 1], [1, 1, 2, 3], [3, 1, 1, 2]]

/-- Modelled from the spec: the inverse MixColumns matrix rows
(0e,0b,0d,09), (09,0e,0b,0d), (0d,09,0e,0b), (0b,0d,09,0e). -/
def mixColumnPolynomialsInverse : List (List Nat) :=
  [[14, 11, 13, 9], [9, 14, 11, 13], [13, 9, 14, 11], [11, 13, 9, 14]]

/-- Word.Vector from aes.go: split a 32-bit word into four bytes, most
significant first (each Go byte conversion truncates mod 256). -/
def wordVector (w : Nat) : List Nat :=
  [(w >>> 24) &&& 255, (w >>> 16) &&& 255, (w >>> 8) &&& 255, w &&& 255]

/-- SubstituteWord from aes.go: apply the S-box to each byte of a word,
written as the Go loop for i in 1..4 over shift = 32 - 8*i. -/
def SubstituteWord (w : Nat) : Nat :=
  (List.range' 1 4).foldl
    (fun out i =>
      let shift := 32 - 8 * i
      out ||| ((sbox.getD ((w >>> shift) &&& 255) 0) <<< shift))
    0

/-- RotateWord from aes.go: rotate a 32-bit word left by 8 bits (the Go
left shift wraps mod 2^32). -/
def RotateWord (w : Nat) : Nat := ((w <<< 8) % 4294967296) ||| (w >>> 24)

/-- Rcon from aes.go: round constant (x^round mod poly) shifted into the
most significant byte of a word. -/
def Rcon (round : Nat) : Nat := (Mod (Exp2 round) poly) <<< 24

/-- Words from aes.go: reinterpret a byte slice as big-endian 32-bit
words. -/
def Words (bytes : List Nat) : List Nat :=
  (List.range (bytes.length / 4)).map fun i =>
    ((bytes.getD (4 * i) 0) <<< 24) ||| ((bytes.getD (4 * i + 1) 0) <<< 16) |||
      ((bytes.getD (4 * i + 2) 0) <<< 8) ||| bytes.getD (4 * i + 3) 0

/-- NewKey from aes/key.go: after validating the byte length (16, 24 or
32; other lengths panic in Go and appear as hypotheses in the theorems
below), the key is just the word reinterpretation of the bytes. -/
def NewKey (bytes : List Nat) : List Nat := Words bytes

/-- numColumns: the Nb parameter, always 4 for AES. -/
def numColumns : Nat := 4

/-- expandKey from aes/key.go.  The Go code preallocates the schedule and
fills positions wordsInKey..numColumns*(numRounds+1)-1 in order, each new
word reading the previous word (position i-1) and the word wordsInKey
positions back; the embedding appends to a list, which keeps those two
reads at the same indices. -/
def expandKey (key : List Nat) (numRounds wordsInKey nc : Nat) : List Nat :=
  (List.range' wordsInKey (nc * (numRounds + 1) - wordsInKey)).foldl
    (fun out i =>
      let t := out.getD (i - 1) 0
      let word :=
        if i % wordsInKey = 0 then SubstituteWord (RotateWord t) ^^^ Rcon (i / wordsInKey - 1)
        else if nc > 6 ∧ i % nc = 4 then SubstituteWord t
        else t
      out ++ [out.getD (i - wordsInKey) 0 ^^^ word])
    ((List.range wordsInKey).map fun i => key.getD i 0)

/-- Cipher from aes.go: the parsed key, its derived schedule, and the
round count. -/
structure Cipher where
  key : List Nat
  schedule : List Nat
  numRounds : Nat

/-- NewCipher from aes.go: numRounds is 6 plus the number of words in the
key. -/
def NewCipher (key : List Nat) : Cipher :=
  ⟨key, expandKey key (6 + key.length) key.length numColumns, 6 + key.length⟩

/-- parse from aes.go: load a 16-byte block column-major into the 4x4
state, state[r][c] = block[r + 4c]. -/
def parse (block : List Nat) : List (List Nat) :=
  (List.range 4).map fun r => (List.range 4).map fun c => block.getD (r + 4 * c) 0

/-- ColumnVector from the matrix package: the column of a matrix at the
given index. -/
def ColumnVector (m : List (List Nat)) (index : Nat) : List Nat :=
  (List.range m.length).map fun i => (m.getD i []).getD index 0

/-- RowVector from the matrix package. -/
def RowVector (m : List (List Nat)) (index : Nat) : List Nat := m.getD index []

/-- addRoundKey from aes.go: XOR each state column with the bytes of the
corresponding schedule word.  The Go code sets column i of the output to
XOR(stateColumn i, wordVector of schedule[round*4+i]); written pointwise,
out[r][c] = wordVector(schedule[round*4+c])[r] XOR state[r][c]. -/
def addRoundKey (state : List (List Nat)) (schedule : List Nat) (round : Nat) :
    List (List Nat) :=
  (List.range 4).map fun r => (List.range 4).map fun c =>
    (wordVector (schedule.getD (round * 4 + c) 0)).getD r 0 ^^^ (state.getD r []).getD c 0

/-- subBytes from aes.go: S-box substitution of every state byte. -/
def subBytes (state : List (List Nat)) : List (List Nat) :=
  state.map fun row => row.map fun b => sbox.getD b 0

/-- subBytesInverse from aes.go. -/
def subBytesInverse (state : List (List Nat)) : List (List Nat) :=
  state.map fun row => row.map fun b => sboxInverse.getD b 0

/-- shiftRows from aes.go: row i becomes state[i][i:] ++ state[i][:i]. -/
def shiftRows (state : List (List Nat)) : List (List Nat) :=
  (List.range 4).map fun i => ((state.getD i []).drop i) ++ ((state.getD i []).take i)

/-- shiftRowsInverse from aes.go: row i becomes
state[i][4-i:] ++ state[i][:4-i]. -/
def shiftRowsInverse (state : List (List Nat)) : List (List Nat) :=
  (List.range 4).map fun i =>
    ((state.getD i []).drop (4 - i)) ++ ((state.getD i []).take (4 - i))

/-- mixColumns from aes.go: out[row][col] is the GF(2^8) dot product of
row `row` of the polynomial matrix with column `col` of the state. -/
def mixColumns (state polys : List (List Nat)) : List (List Nat) :=
  (List.range state.length).map fun row =>
    (List.range (state.getD row []).length).map fun col =>
      DotProduct (RowVector polys row) (ColumnVector state col)

/-- matrixBlock from aes.go: emit the state back into a 16-byte block,
out[row*4 + col] = m[col][row]. -/
def matrixBlock (m : List (List Nat)) : List Nat :=
  ((List.range 4).map fun row => (List.range 4).map fun col => (m.getD col []).getD row 0).flatten

/-- Cipher.Encrypt from aes.go: AddRoundKey(0); numRounds-1 full rounds of
SubBytes, ShiftRows, MixColumns, AddRoundKey; then a last round without
MixColumns. -/
def Encrypt (c : Cipher) (block : List Nat) : List Nat :=
  let s0 := addRoundKey (parse block) c.schedule 0
  let s1 := (List.range' 1 (c.numRounds - 1)).foldl
    (fun state round =>
      addRoundKey (mixColumns (shiftRows (subBytes state)) mixColumnPolynomials)
        c.schedule round)
    s0
  matrixBlock (addRoundKey (shiftRows (subBytes s1)) c.schedule c.numRounds)

/-- Cipher.Decrypt from aes.go: the steps of Encrypt applied in reverse
order with the inverse transformations, the round loop running from
numRounds-1 down to 1. -/
def Decrypt (c : Cipher) (block : List Nat) : List Nat :=
  let s0 := addRoundKey (parse block) c.schedule c.numRounds
  let s1 := ((List.range' 1 (c.numRounds - 1)).reverse).foldl
    (fun state round =>
      mixColumns (addRoundKey (subBytesInverse (shiftRowsInverse state)) c.schedule round)
        mixColumnPolynomialsInverse)
    s0
  matrixBlock (addRoundKey (subBytesInverse (shiftRowsInverse s1)) c.schedule 0)

/-- XOR from the blockcipher package: out has the length of a, and
out[i] = b[i] XOR a[i mod len a] (the Go code panics when the lengths
differ; all uses in the modes pass equal 16-byte slices). -/
def XOR (a b : List Nat) : List Nat :=
  (List.range a.length).map fun i => b.getD i 0 ^^^ a.getD (i % a.length) 0

/-- PadBytes from the blockcipher package: append length - len(bytes)
copies of the byte value length - len(bytes).  In Go both quantities are
ints; when length <= len(bytes) the loop body never runs, which the Nat
truncated subtraction reproduces (the pad byte value is only used when
length > len(bytes), where Nat and Go agree). -/
def PadBytes (bytes : List Nat) (length : Nat) : List Nat :=
  bytes ++ List.replicate (length - bytes.length) ((length - bytes.length) % 256)

/-- Blockify from the blockcipher package.  When the input length is not
a multiple of size, PadBytes is called with the block count
len/size + 1 (not a byte length).  The loop then walks the bytes,
flushing the 16-byte buffer at every index that is a positive multiple
of 16 and finally appending the buffer (zero-initialised, so a final
partial block is padded with zeros). -/
def Blockify (bytes : List Nat) (size : Nat) : List (List Nat) :=
  let padded := if bytes.length % size > 0 then PadBytes bytes (bytes.length / size + 1) else bytes
  let st := (List.range padded.length).foldl
    (fun (st : List (List Nat) × List Nat) i =>
      let st := if i % 16 = 0 ∧ i > 0 then (st.1 ++ [st.2], List.replicate size 0) else st
      (st.1, st.2.set (i % 16) (padded.getD i 0)))
    ([], List.replicate size 0)
  st.1 ++ [st.2]

/-- LittleEndian from the blockcipher package: the low wordLen bytes of i,
least significant first. -/
def LittleEndian (i : Nat) (wordLen : Nat) : List Nat :=
  (List.range wordLen).map fun j => (i >>> (8 * j)) &&& 255

/-- ctr.Encrypt from the blockcipher package, with the mode receiver
state (the nonce counter field) passed and returned explicitly and the
per-block cipher abstracted as the function enc (the Go code calls the
cipher through the blockcipher.Cipher capability).  Each block builds a
nonce of two zero little-endian 64-bit fields, encrypts it for the
keystream, XORs the keystream with the block, and increments the stored
counter (which is never read). -/
def ctrEncrypt (enc : List Nat → List Nat) (nonce : Nat) (bytes : List Nat) :
    List Nat × Nat :=
  (Blockify bytes 16).foldl
    (fun (st : List Nat × Nat) b =>
      let nonceBytes := LittleEndian 0 8 ++ LittleEndian 0 8
      let keystream := enc nonceBytes
      let encrypted := (List.range 16).map fun i => keystream.getD i 0 ^^^ b.getD i 0
      (st.1 ++ encrypted, st.2 + 1))
    ([], nonce)

/-- ctr.Decrypt from the blockcipher package: it just calls Encrypt. -/
def ctrDecrypt (enc : List Nat → List Nat) (nonce : Nat) (bytes : List Nat) :
    List Nat × Nat :=
  ctrEncrypt enc nonce bytes

/-- cbc.Encrypt from the blockcipher package: chain the stored IV through
the blocks, encrypting block XOR previous ciphertext. -/
def cbcEncrypt (enc : List Nat → List Nat) (iv : List Nat) (bytes : List Nat) : List Nat :=
  ((Blockify bytes 16).foldl
    (fun (st : List Nat × List Nat) b =>
      let encrypted := enc (XOR b st.2)
      (st.1 ++ encrypted, encrypted))
    ([], iv)).1

/-- cbc.Decrypt from the blockcipher package: decrypt each block, XOR with
the previous ciphertext block (initially the IV). -/
def cbcDecrypt (dec : List Nat → List Nat) (iv : List Nat) (bytes : List Nat) : List Nat :=
  ((Blockify bytes 16).foldl
    (fun (st : List Nat × List Nat) b =>
      let block := dec b
      let decrypted := XOR block st.2
      (st.1 ++ decrypted, b))
    ([], iv)).1

/-- Modelled from the spec (for claim C4 only): expandKey with the word
substitution branch exactly as the claim words it, substituting the
temporary when Nk > 6 and i mod Nb = 4; everything else as in the
source. -/
def expandKeyClaim (key : List Nat) (numRounds wordsInKey nc : Nat) : List Nat :=
  (List.range' wordsInKey (nc * (numRounds + 1) - wordsInKey)).foldl
    (fun out i =>
      let t := out.getD (i - 1) 0
      let word :=
        if i % wordsInKey = 0 then SubstituteWord (RotateWord t) ^^^ Rcon (i / wordsInKey - 1)
        else if wordsInKey > 6 ∧ i % nc = 4 then SubstituteWord t
        else t
      out ++ [out.getD (i - wordsInKey) 0 ^^^ word])
    ((List.range wordsInKey).map fun i => key.getD i 0)

/-! Helper definitions used only in the proofs below (not part of the
embedding). -/

/-- Partial sums of the Russian-peasant product: XOR of the xtime iterates
of a at the set bit positions of b below n. -/
def mulSum (a b : Nat) : Nat → Nat
  | 0 => 0
  | n+1 => mulSum a b n ^^^ (if b.testBit n then Xtime^[n] a else 0)

/-- Split a byte list into 16-byte chunks (exact multiples only; used to
reason about Blockify). -/
def chunksExact (l : List Nat) : List (List Nat) :=
  if l = [] then [] else l.take 16 :: chunksExact (l.drop 16)
termination_by l.length
decreasing_by
  simp only [List.length_drop]
  rename_i h
  have : 0 < l.length := List.length_pos.mpr h
  omega

/-- Extend a list with zeros to length 16. -/
def zeroPad16 (l : List Nat) : List Nat := l ++ List.replicate (16 - l.length) 0

/-- Entry r c of a state matrix (out-of-range reads default to 0, matching
the getD-based embedding). -/
def mget (m : List (List Nat)) (r c : Nat) : Nat := (m.getD r []).getD c 0

/-- Canonical 4x4 matrix built from an entry function. -/
def mk4 (f : Nat → Nat → Nat) : List (List Nat) :=
  (List.range 4).map fun r => (List.range 4).map (f r)

/-- Well-formed state: a 4x4 matrix. -/
def WFState (s : List (List Nat)) : Prop :=
  s.length = 4 ∧ ∀ row ∈ s, row.length = 4

/-- All entries of the state are bytes. -/
def BytesState (s : List (List Nat)) : Prop :=
  ∀ row ∈ s, ∀ x ∈ row, x < 256

/-- The loop body of Blockify at block size 16, as a named function (used
to reason about the fold; definitionally equal to the lambda inside
Blockify). -/
def blockStep (padded : List Nat) (st : List (List Nat) × List Nat) (i : Nat) :
    List (List Nat) × List Nat :=
  let st := if i % 16 = 0 ∧ i > 0 then (st.1 ++ [st.2], List.replicate 16 0) else st
  (st.1, st.2.set (i % 16) (padded.getD i 0))

/-- The fold of Blockify (at size 16) over an already padded byte list. -/
def blockifyCore (p : List Nat) : List (List Nat) :=
  let st := (List.range p.length).foldl (blockStep p) ([], List.replicate 16 0)
  st.1 ++ [st.2]

/-- The ciphertext-block chain of CBC encryption: each element encrypts
the XOR of the plaintext block with the previous element (initially
prev). -/
def cbcChain (enc : List Nat → List Nat) (prev : List Nat) :
    List (List Nat) → List (List Nat)
  | [] => []
  | b :: bs => enc (XOR b prev) :: cbcChain enc (enc (XOR b prev)) bs

/-- XOR on Nat is associative (instance used by ac_rfl in the MixColumns
inverse proof). -/
instance : Std.Associative (fun a b : Nat => a ^^^ b) := ⟨Nat.xor_assoc⟩

/-- XOR on Nat is commutative (instance used by ac_rfl in the MixColumns
inverse proof). -/
instance : Std.Commutative (fun a b : Nat => a ^^^ b) := ⟨Nat.xor_comm⟩

end AESGo

namespace AESGo

/-! Lemmas about bitsLen. -/

theorem bitsLenAux_zero (fuel : Nat) : bitsLenAux fuel 0 = 0 := by
  cases fuel <;> simp [bitsLenAux]

theorem bitsLenAux_lt (fuel n : Nat) (h : n ≤ fuel) : n < 2 ^ bitsLenAux fuel n := by
  induction fuel generalizing n with
  | zero => interval_cases n; simp [bitsLenAux]
  | succ fuel ih =>
    by_cases h0 : n = 0
    · subst h0; simp [bitsLenAux]
    · have hdiv : n / 2 ≤ fuel := by omega
      have := ih (n / 2) hdiv
      simp only [bitsLenAux, h0, if_false, pow_succ]
      omega

theorem bitsLen_lt (n : Nat) : n < 2 ^ bitsLen n := bitsLenAux_lt n n le_rfl

theorem bitsLenAux_pos (fuel n : Nat) (h0 : n ≠ 0) (h : n ≤ fuel) :
    1 ≤ bitsLenAux fuel n := by
  cases fuel with
  | zero => omega
  | succ fuel => simp [bitsLenAux, h0]

theorem bitsLen_pos (n : Nat) (h0 : n ≠ 0) : 1 ≤ bitsLen n := bitsLenAux_pos n n h0 le_rfl

theorem bitsLenAux_ge (fuel n : Nat) (h0 : n ≠ 0) (h : n ≤ fuel) :
    2 ^ (bitsLenAux fuel n - 1) ≤ n := by
  induction fuel generalizing n with
  | zero => omega
  | succ fuel ih =>
    by_cases hd : n / 2 = 0
    · have hn1 : n = 1 := by omega
      subst hn1
      simp [bitsLenAux, bitsLenAux_zero]
    · have hdiv : n / 2 ≤ fuel := by omega
      have hge := ih (n / 2) hd hdiv
      have hpos := bitsLenAux_pos fuel (n / 2) hd hdiv
      simp only [bitsLenAux, h0, if_false]
      have heq : bitsLenAux fuel (n / 2) + 1 - 1 = bitsLenAux fuel (n / 2) := by omega
      rw [heq]
      have : 2 ^ (bitsLenAux fuel (n / 2) - 1 + 1) ≤ 2 * (n / 2) := by
        rw [pow_succ]; omega
      have heq2 : bitsLenAux fuel (n / 2) - 1 + 1 = bitsLenAux fuel (n / 2) := by omega
      rw [heq2] at this
      omega

theorem bitsLen_ge (n : Nat) (h0 : n ≠ 0) : 2 ^ (bitsLen n - 1) ≤ n :=
  bitsLenAux_ge n n h0 le_rfl

theorem bitsLen_eq_zero (n : Nat) (h : bitsLen n = 0) : n = 0 := by
  by_contra h0
  have := bitsLen_pos n h0
  omega

theorem bitsLen_unique (n m : Nat) (h1 : 2 ^ (m - 1) ≤ n) (h2 : n < 2 ^ m) (hm : 1 ≤ m) :
    bitsLen n = m := by
  have h0 : n ≠ 0 := by
    have : 1 ≤ 2 ^ (m - 1) := Nat.one_le_two_pow
    omega
  have hbl1 := bitsLen_ge n h0
  have hbl2 := bitsLen_lt n
  have hblp := bitsLen_pos n h0
  by_contra hne
  rcases Nat.lt_or_ge (bitsLen n) m with hlt | hge
  · have : (2 : Nat) ^ bitsLen n ≤ 2 ^ (m - 1) := Nat.pow_le_pow_right (by norm_num) (by omega)
    omega
  · have hgt : m < bitsLen n := by omega
    have : (2 : Nat) ^ m ≤ 2 ^ (bitsLen n - 1) := Nat.pow_le_pow_right (by norm_num) (by omega)
    omega

theorem bitsLen_le_of_lt_two_pow (n j : Nat) (h : n < 2 ^ j) : bitsLen n ≤ j := by
  by_cases h0 : n = 0
  · subst h0; simp [bitsLen, bitsLenAux_zero]
  · have h1 := bitsLen_ge n h0
    have hp := bitsLen_pos n h0
    by_contra hgt
    have : (2 : Nat) ^ j ≤ 2 ^ (bitsLen n - 1) := Nat.pow_le_pow_right (by norm_num) (by omega)
    omega

theorem bitsLen_le_self (n : Nat) : bitsLen n ≤ n := by
  by_cases h0 : n = 0
  · subst h0; simp [bitsLen, bitsLenAux_zero]
  · have h1 := bitsLen_ge n h0
    have hp := bitsLen_pos n h0
    have h2 : bitsLen n - 1 < 2 ^ (bitsLen n - 1) := Nat.lt_two_pow _
    omega

theorem testBit_ge_bitsLen (b i : Nat) (h : bitsLen b ≤ i) : b.testBit i = false := by
  apply Nat.testBit_lt_two_pow
  calc b < 2 ^ bitsLen b := bitsLen_lt b
    _ ≤ 2 ^ i := Nat.pow_le_pow_right (by norm_num) h

theorem bitsLen_shiftLeft (d k : Nat) (h0 : d ≠ 0) :
    bitsLen (d <<< k) = bitsLen d + k := by
  have h1 := bitsLen_ge d h0
  have h2 := bitsLen_lt d
  have hp := bitsLen_pos d h0
  apply bitsLen_unique
  · rw [Nat.shiftLeft_eq]
    have : bitsLen d + k - 1 = bitsLen d - 1 + k := by omega
    rw [this, pow_add]
    exact Nat.mul_le_mul_right _ h1
  · rw [Nat.shiftLeft_eq, pow_add]
    exact (Nat.mul_lt_mul_right (Nat.pos_pow_of_pos k (by norm_num))).mpr h2
  · omega

end AESGo

namespace AESGo

/-! Lemmas about Multiply: characterization as a XOR of xtime iterates over
the set bits of the second argument, and distributivity over XOR. -/

theorem and_two_pow_pos_iff (b i : Nat) : b &&& Exp2 i > 0 ↔ b.testBit i = true := by
  have h : Exp2 i = 2 ^ i := by
    simp [Exp2, Nat.shiftLeft_eq]
  rw [h, Nat.and_two_pow]
  cases hb : b.testBit i <;> simp [hb, Nat.two_pow_pos]

theorem multiply_foldl (a b : Nat) (n : Nat) :
    (List.range n).foldl
      (fun st i => (if b &&& Exp2 i > 0 then st.1 ^^^ st.2 else st.1, Xtime st.2))
      (0, a) = (mulSum a b n, Xtime^[n] a) := by
  induction n with
  | zero => simp [mulSum]
  | succ n ih =>
    rw [List.range_succ, List.foldl_append, ih]
    simp only [List.foldl_cons, List.foldl_nil, mulSum]
    rw [Function.iterate_succ_apply']
    by_cases hbit : b.testBit n
    · simp [and_two_pow_pos_iff, hbit]
    · simp [and_two_pow_pos_iff, hbit]

theorem multiply_eq_mulSum (a b : Nat) : Multiply a b = mulSum a b (bitsLen b) := by
  rw [Multiply, multiply_foldl]

theorem mulSum_ext (a b n : Nat) (h : bitsLen b ≤ n) :
    mulSum a b n = mulSum a b (bitsLen b) := by
  induction n with
  | zero =>
    have : bitsLen b = 0 := by omega
    rw [this]
  | succ n ih =>
    rcases Nat.lt_or_ge (bitsLen b) (n + 1) with hlt | hge
    · have h1 : bitsLen b ≤ n := by omega
      have h2 : b.testBit n = false := testBit_ge_bitsLen b n h1
      simp [mulSum, h2, ih h1]
    · have : bitsLen b = n + 1 := by omega
      rw [this]

theorem multiply_eq_mulSum_of_ge (a b n : Nat) (h : bitsLen b ≤ n) :
    Multiply a b = mulSum a b n := by
  rw [multiply_eq_mulSum, mulSum_ext a b n h]

theorem xorLeftComm (a b c : Nat) : a ^^^ (b ^^^ c) = b ^^^ (a ^^^ c) := by
  rw [← Nat.xor_assoc, Nat.xor_comm a b, Nat.xor_assoc]

theorem mulSum_xor (a x y n : Nat) :
    mulSum a (x ^^^ y) n = mulSum a x n ^^^ mulSum a y n := by
  induction n with
  | zero => simp [mulSum]
  | succ n ih =>
    simp only [mulSum, ih, Nat.testBit_xor]
    cases hx : x.testBit n <;> cases hy : y.testBit n <;>
      simp [Nat.xor_assoc, Nat.xor_comm, xorLeftComm, Nat.xor_cancel_left]

theorem mul_xor_right (a x y : Nat) :
    Multiply a (x ^^^ y) = Multiply a x ^^^ Multiply a y := by
  set n := max (bitsLen (x ^^^ y)) (max (bitsLen x) (bitsLen y)) with hn
  rw [multiply_eq_mulSum_of_ge a (x ^^^ y) n (by omega),
    multiply_eq_mulSum_of_ge a x n (by omega),
    multiply_eq_mulSum_of_ge a y n (by omega),
    mulSum_xor]

theorem mul_zero_right (a : Nat) : Multiply a 0 = 0 := by
  rw [multiply_eq_mulSum]
  simp [bitsLen, bitsLenAux_zero, mulSum]

theorem Xtime_lt (a : Nat) : Xtime a < 256 := by
  have h : Xtime a = (if a &&& 128 > 0 then (a <<< 1) % 256 ^^^ poly else (a <<< 1) % 256) &&& 255 := rfl
  rw [h]
  have h2 : (if a &&& 128 > 0 then (a <<< 1) % 256 ^^^ poly else (a <<< 1) % 256) &&& 255 ≤ 255 :=
    Nat.and_le_right
  omega

theorem multiply_lt (a b : Nat) (ha : a < 256) : Multiply a b < 256 := by
  rw [Multiply]
  suffices h : ∀ (l : List Nat) (st : Nat × Nat), st.1 < 256 → st.2 < 256 →
      (l.foldl (fun st i => (if b &&& Exp2 i > 0 then st.1 ^^^ st.2 else st.1, Xtime st.2)) st).1 < 256 by
    exact h _ (0, a) (by norm_num) ha
  intro l
  induction l with
  | nil => intro st h1 h2; exact h1
  | cons i l ih =>
    intro st h1 h2
    simp only [List.foldl_cons]
    apply ih
    · by_cases hc : b &&& Exp2 i > 0
      · simp only [hc, if_true]
        have : st.1 ^^^ st.2 < 2 ^ 8 := Nat.xor_lt_two_pow (by norm_num at h1 ⊢; omega) (by norm_num at h2 ⊢; omega)
        norm_num at this; omega
      · simpa [hc]
    · exact Xtime_lt st.2

end AESGo

namespace AESGo

/-! The inverse MixColumns matrix times the forward MixColumns matrix is the
identity over GF(2^8): for every byte x and every pair of a row r of the
inverse matrix and a column k of the forward matrix, the XOR over j of
multiply(inv[r][j], multiply(polys[j][k], x)) is x when r = k and 0
otherwise.  Stated as sixteen explicit conjuncts, checked by kernel
evaluation over the 256 byte values. -/
set_option maxRecDepth 100000 in
set_option maxHeartbeats 4000000 in
theorem mixTable : ∀ x < 256,
    (Multiply 14 (Multiply 2 x) ^^^ Multiply 11 (Multiply 1 x) ^^^ Multiply 13 (Multiply 1 x) ^^^ Multiply 9 (Multiply 3 x) = x) ∧
    (Multiply 14 (Multiply 3 x) ^^^ Multiply 11 (Multiply 2 x) ^^^ Multiply 13 (Multiply 1 x) ^^^ Multiply 9 (Multiply 1 x) = 0) ∧
    (Multiply 14 (Multiply 1 x) ^^^ Multiply 11 (Multiply 3 x) ^^^ Multiply 13 (Multiply 2 x) ^^^ Multiply 9 (Multiply 1 x) = 0) ∧
    (Multiply 14 (Multiply 1 x) ^^^ Multiply 11 (Multiply 1 x) ^^^ Multiply 13 (Multiply 3 x) ^^^ Multiply 9 (Multiply 2 x) = 0) ∧
    (Multiply 9 (Multiply 2 x) ^^^ Multiply 14 (Multiply 1 x) ^^^ Multiply 11 (Multiply 1 x) ^^^ Multiply 13 (Multiply 3 x) = 0) ∧
    (Multiply 9 (Multiply 3 x) ^^^ Multiply 14 (Multiply 2 x) ^^^ Multiply 11 (Multiply 1 x) ^^^ Multiply 13 (Multiply 1 x) = x) ∧
    (Multiply 9 (Multiply 1 x) ^^^ Multiply 14 (Multiply 3 x) ^^^ Multiply 11 (Multiply 2 x) ^^^ Multiply 13 (Multiply 1 x) = 0) ∧
    (Multiply 9 (Multiply 1 x) ^^^ Multiply 14 (Multiply 1 x) ^^^ Multiply 11 (Multiply 3 x) ^^^ Multiply 13 (Multiply 2 x) = 0) ∧
    (Multiply 13 (Multiply 2 x) ^^^ Multiply 9 (Multiply 1 x) ^^^ Multiply 14 (Multiply 1 x) ^^^ Multiply 11 (Multiply 3 x) = 0) ∧
    (Multiply 13 (Multiply 3 x) ^^^ Multiply 9 (Multiply 2 x) ^^^ Multiply 14 (Multiply 1 x) ^^^ Multiply 11 (Multiply 1 x) = 0) ∧
    (Multiply 13 (Multiply 1 x) ^^^ Multiply 9 (Multiply 3 x) ^^^ Multiply 14 (Multiply 2 x) ^^^ Multiply 11 (Multiply 1 x) = x) ∧
    (Multiply 13 (Multiply 1 x) ^^^ Multiply 9 (Multiply 1 x) ^^^ Multiply 14 (Multiply 3 x) ^^^ Multiply 11 (Multiply 2 x) = 0) ∧
    (Multiply 11 (Multiply 2 x) ^^^ Multiply 13 (Multiply 1 x) ^^^ Multiply 9 (Multiply 1 x) ^^^ Multiply 14 (Multiply 3 x) = 0) ∧
    (Multiply 11 (Multiply 3 x) ^^^ Multiply 13 (Multiply 2 x) ^^^ Multiply 9 (Multiply 1 x) ^^^ Multiply 14 (Multiply 1 x) = 0) ∧
    (Multiply 11 (Multiply 1 x) ^^^ Multiply 13 (Multiply 3 x) ^^^ Multiply 9 (Multiply 2 x) ^^^ Multiply 14 (Multiply 1 x) = 0) ∧
    (Multiply 11 (Multiply 1 x) ^^^ Multiply 13 (Multiply 1 x) ^^^ Multiply 9 (Multiply 3 x) ^^^ Multiply 14 (Multiply 2 x) = x) := by decide

/-- Column-level inverse for row 0: applying the inverse mixing row to the
four forward-mixed column bytes returns byte 0 of the column. -/
theorem colInv0 (x0 x1 x2 x3 : Nat) (h0 : x0 < 256) (h1 : x1 < 256) (h2 : x2 < 256)
    (h3 : x3 < 256) :
    0 ^^^ Multiply 14 (0 ^^^ Multiply 2 x0 ^^^ Multiply 3 x1 ^^^ Multiply 1 x2 ^^^ Multiply 1 x3) ^^^ Multiply 11 (0 ^^^ Multiply 1 x0 ^^^ Multiply 2 x1 ^^^ Multiply 3 x2 ^^^ Multiply 1 x3) ^^^ Multiply 13 (0 ^^^ Multiply 1 x0 ^^^ Multiply 1 x1 ^^^ Multiply 2 x2 ^^^ Multiply 3 x3) ^^^ Multiply 9 (0 ^^^ Multiply 3 x0 ^^^ Multiply 1 x1 ^^^ Multiply 1 x2 ^^^ Multiply 2 x3) = x0 := by
  simp only [Nat.zero_xor, mul_xor_right]
  have h : (Multiply 14 (Multiply 2 x0) ^^^ Multiply 11 (Multiply 1 x0) ^^^ Multiply 13 (Multiply 1 x0) ^^^ Multiply 9 (Multiply 3 x0)) ^^^ (Multiply 14 (Multiply 3 x1) ^^^ Multiply 11 (Multiply 2 x1) ^^^ Multiply 13 (Multiply 1 x1) ^^^ Multiply 9 (Multiply 1 x1)) ^^^ (Multiply 14 (Multiply 1 x2) ^^^ Multiply 11 (Multiply 3 x2) ^^^ Multiply 13 (Multiply 2 x2) ^^^ Multiply 9 (Multiply 1 x2)) ^^^ (Multiply 14 (Multiply 1 x3) ^^^ Multiply 11 (Multiply 1 x3) ^^^ Multiply 13 (Multiply 3 x3) ^^^ Multiply 9 (Multiply 2 x3)) = x0 := by
    rw [(mixTable x0 h0).1, (mixTable x1 h1).2.1, (mixTable x2 h2).2.2.1, (mixTable x3 h3).2.2.2.1]
    simp
  conv_rhs => rw [← h]
  ac_rfl

/-- Column-level inverse for row 1: applying the inverse mixing row to the
four forward-mixed column bytes returns byte 1 of the column. -/
theorem colInv1 (x0 x1 x2 x3 : Nat) (h0 : x0 < 256) (h1 : x1 < 256) (h2 : x2 < 256)
    (h3 : x3 < 256) :
    0 ^^^ Multiply 9 (0 ^^^ Multiply 2 x0 ^^^ Multiply 3 x1 ^^^ Multiply 1 x2 ^^^ Multiply 1 x3) ^^^ Multiply 14 (0 ^^^ Multiply 1 x0 ^^^ Multiply 2 x1 ^^^ Multiply 3 x2 ^^^ Multiply 1 x3) ^^^ Multiply 11 (0 ^^^ Multiply 1 x0 ^^^ Multiply 1 x1 ^^^ Multiply 2 x2 ^^^ Multiply 3 x3) ^^^ Multiply 13 (0 ^^^ Multiply 3 x0 ^^^ Multiply 1 x1 ^^^ Multiply 1 x2 ^^^ Multiply 2 x3) = x1 := by
  simp only [Nat.zero_xor, mul_xor_right]
  have h : (Multiply 9 (Multiply 2 x0) ^^^ Multiply 14 (Multiply 1 x0) ^^^ Multiply 11 (Multiply 1 x0) ^^^ Multiply 13 (Multiply 3 x0)) ^^^ (Multiply 9 (Multiply 3 x1) ^^^ Multiply 14 (Multiply 2 x1) ^^^ Multiply 11 (Multiply 1 x1) ^^^ Multiply 13 (Multiply 1 x1)) ^^^ (Multiply 9 (Multiply 1 x2) ^^^ Multiply 14 (Multiply 3 x2) ^^^ Multiply 11 (Multiply 2 x2) ^^^ Multiply 13 (Multiply 1 x2)) ^^^ (Multiply 9 (Multiply 1 x3) ^^^ Multiply 14 (Multiply 1 x3) ^^^ Multiply 11 (Multiply 3 x3) ^^^ Multiply 13 (Multiply 2 x3)) = x1 := by
    rw [(mixTable x0 h0).2.2.2.2.1, (mixTable x1 h1).2.2.2.2.2.1, (mixTable x2 h2).2.2.2.2.2.2.1, (mixTable x3 h3).2.2.2.2.2.2.2.1]
    simp
  conv_rhs => rw [← h]
  ac_rfl

/-- Column-level inverse for row 2: applying the inverse mixing row to the
four forward-mixed column bytes returns byte 2 of the column. -/
theorem colInv2 (x0 x1 x2 x3 : Nat) (h0 : x0 < 256) (h1 : x1 < 256) (h2 : x2 < 256)
    (h3 : x3 < 256) :
    0 ^^^ Multiply 13 (0 ^^^ Multiply 2 x0 ^^^ Multiply 3 x1 ^^^ Multiply 1 x2 ^^^ Multiply 1 x3) ^^^ Multiply 9 (0 ^^^ Multiply 1 x0 ^^^ Multiply 2 x1 ^^^ Multiply 3 x2 ^^^ Multiply 1 x3) ^^^ Multiply 14 (0 ^^^ Multiply 1 x0 ^^^ Multiply 1 x1 ^^^ Multiply 2 x2 ^^^ Multiply 3 x3) ^^^ Multiply 11 (0 ^^^ Multiply 3 x0 ^^^ Multiply 1 x1 ^^^ Multiply 1 x2 ^^^ Multiply 2 x3) = x2 := by
  simp only [Nat.zero_xor, mul_xor_right]
  have h : (Multiply 13 (Multiply 2 x0) ^^^ Multiply 9 (Multiply 1 x0) ^^^ Multiply 14 (Multiply 1 x0) ^^^ Multiply 11 (Multiply 3 x0)) ^^^ (Multiply 13 (Multiply 3 x1) ^^^ Multiply 9 (Multiply 2 x1) ^^^ Multiply 14 (Multiply 1 x1) ^^^ Multiply 11 (Multiply 1 x1)) ^^^ (Multiply 13 (Multiply 1 x2) ^^^ Multiply 9 (Multiply 3 x2) ^^^ Multiply 14 (Multiply 2 x2) ^^^ Multiply 11 (Multiply 1 x2)) ^^^ (Multiply 13 (Multiply 1 x3) ^^^ Multiply 9 (Multiply 1 x3) ^^^ Multiply 14 (Multiply 3 x3) ^^^ Multiply 11 (Multiply 2 x3)) = x2 := by
    rw [(mixTable x0 h0).2.2.2.2.2.2.2.2.1, (mixTable x1 h1).2.2.2.2.2.2.2.2.2.1, (mixTable x2 h2).2.2.2.2.2.2.2.2.2.2.1, (mixTable x3 h3).2.2.2.2.2.2.2.2.2.2.2.1]
    simp
  conv_rhs => rw [← h]
  ac_rfl

/-- Column-level inverse for row 3: applying the inverse mixing row to the
four forward-mixed column bytes returns byte 3 of the column. -/
theorem colInv3 (x0 x1 x2 x3 : Nat) (h0 : x0 < 256) (h1 : x1 < 256) (h2 : x2 < 256)
    (h3 : x3 < 256) :
    0 ^^^ Multiply 11 (0 ^^^ Multiply 2 x0 ^^^ Multiply 3 x1 ^^^ Multiply 1 x2 ^^^ Multiply 1 x3) ^^^ Multiply 13 (0 ^^^ Multiply 1 x0 ^^^ Multiply 2 x1 ^^^ Multiply 3 x2 ^^^ Multiply 1 x3) ^^^ Multiply 9 (0 ^^^ Multiply 1 x0 ^^^ Multiply 1 x1 ^^^ Multiply 2 x2 ^^^ Multiply 3 x3) ^^^ Multiply 14 (0 ^^^ Multiply 3 x0 ^^^ Multiply 1 x1 ^^^ Multiply 1 x2 ^^^ Multiply 2 x3) = x3 := by
  simp only [Nat.zero_xor, mul_xor_right]
  have h : (Multiply 11 (Multiply 2 x0) ^^^ Multiply 13 (Multiply 1 x0) ^^^ Multiply 9 (Multiply 1 x0) ^^^ Multiply 14 (Multiply 3 x0)) ^^^ (Multiply 11 (Multiply 3 x1) ^^^ Multiply 13 (Multiply 2 x1) ^^^ Multiply 9 (Multiply 1 x1) ^^^ Multiply 14 (Multiply 1 x1)) ^^^ (Multiply 11 (Multiply 1 x2) ^^^ Multiply 13 (Multiply 3 x2) ^^^ Multiply 9 (Multiply 2 x2) ^^^ Multiply 14 (Multiply 1 x2)) ^^^ (Multiply 11 (Multiply 1 x3) ^^^ Multiply 13 (Multiply 1 x3) ^^^ Multiply 9 (Multiply 3 x3) ^^^ Multiply 14 (Multiply 2 x3)) = x3 := by
    rw [(mixTable x0 h0).2.2.2.2.2.2.2.2.2.2.2.2.1, (mixTable x1 h1).2.2.2.2.2.2.2.2.2.2.2.2.2.1, (mixTable x2 h2).2.2.2.2.2.2.2.2.2.2.2.2.2.2.1, (mixTable x3 h3).2.2.2.2.2.2.2.2.2.2.2.2.2.2.2]
    simp
  conv_rhs => rw [← h]
  ac_rfl

end AESGo

namespace AESGo

/-! State matrix infrastructure: every round operation on a well-formed
4x4 state is a canonical mk4 matrix, and the step inverses hold
pointwise. -/

theorem list4_explode {α : Type} (l : List α) (h : l.length = 4) :
    ∃ a b c d, l = [a, b, c, d] := by
  match l, h with
  | [a, b, c, d], _ => exact ⟨a, b, c, d, rfl⟩

theorem state_explode (s : List (List Nat)) (h : WFState s) :
    ∃ x00 x01 x02 x03 x10 x11 x12 x13 x20 x21 x22 x23 x30 x31 x32 x33,
      s = [[x00, x01, x02, x03], [x10, x11, x12, x13],
           [x20, x21, x22, x23], [x30, x31, x32, x33]] := by
  obtain ⟨hlen, hrow⟩ := h
  obtain ⟨r0, r1, r2, r3, rfl⟩ := list4_explode s hlen
  obtain ⟨a0, a1, a2, a3, rfl⟩ := list4_explode r0 (hrow _ (by simp))
  obtain ⟨b0, b1, b2, b3, rfl⟩ := list4_explode r1 (hrow _ (by simp))
  obtain ⟨c0, c1, c2, c3, rfl⟩ := list4_explode r2 (hrow _ (by simp))
  obtain ⟨d0, d1, d2, d3, rfl⟩ := list4_explode r3 (hrow _ (by simp))
  exact ⟨a0, a1, a2, a3, b0, b1, b2, b3, c0, c1, c2, c3, d0, d1, d2, d3, rfl⟩

theorem bytes_explicit {x00 x01 x02 x03 x10 x11 x12 x13 x20 x21 x22 x23 x30 x31 x32 x33 : Nat}
    (h : BytesState [[x00, x01, x02, x03], [x10, x11, x12, x13],
      [x20, x21, x22, x23], [x30, x31, x32, x33]]) :
    (x00 < 256 ∧ x01 < 256 ∧ x02 < 256 ∧ x03 < 256) ∧
    (x10 < 256 ∧ x11 < 256 ∧ x12 < 256 ∧ x13 < 256) ∧
    (x20 < 256 ∧ x21 < 256 ∧ x22 < 256 ∧ x23 < 256) ∧
    (x30 < 256 ∧ x31 < 256 ∧ x32 < 256 ∧ x33 < 256) := by
  exact ⟨⟨h [x00, x01, x02, x03] (by simp) x00 (by simp), h [x00, x01, x02, x03] (by simp) x01 (by simp), h [x00, x01, x02, x03] (by simp) x02 (by simp), h [x00, x01, x02, x03] (by simp) x03 (by simp)⟩,
    ⟨h [x10, x11, x12, x13] (by simp) x10 (by simp), h [x10, x11, x12, x13] (by simp) x11 (by simp), h [x10, x11, x12, x13] (by simp) x12 (by simp), h [x10, x11, x12, x13] (by simp) x13 (by simp)⟩,
    ⟨h [x20, x21, x22, x23] (by simp) x20 (by simp), h [x20, x21, x22, x23] (by simp) x21 (by simp), h [x20, x21, x22, x23] (by simp) x22 (by simp), h [x20, x21, x22, x23] (by simp) x23 (by simp)⟩,
    ⟨h [x30, x31, x32, x33] (by simp) x30 (by simp), h [x30, x31, x32, x33] (by simp) x31 (by simp), h [x30, x31, x32, x33] (by simp) x32 (by simp), h [x30, x31, x32, x33] (by simp) x33 (by simp)⟩⟩

theorem WF_mk4 (f : Nat → Nat → Nat) : WFState (mk4 f) := by
  constructor
  · simp [mk4]
  · intro row hrow
    simp only [mk4, List.mem_map] at hrow
    obtain ⟨r, _, rfl⟩ := hrow
    simp

theorem Bytes_mk4 (f : Nat → Nat → Nat) (h : ∀ r < 4, ∀ c < 4, f r c < 256) :
    BytesState (mk4 f) := by
  intro row hrow x hx
  simp only [mk4, List.mem_map, List.mem_range] at hrow
  obtain ⟨r, hr, rfl⟩ := hrow
  simp only [List.mem_map, List.mem_range] at hx
  obtain ⟨c, hc, rfl⟩ := hx
  exact h r hr c hc

theorem mk4_ext (f g : Nat → Nat → Nat) (h : ∀ r < 4, ∀ c < 4, f r c = g r c) :
    mk4 f = mk4 g := by
  simp only [mk4]
  apply List.map_congr_left
  intro r hr
  apply List.map_congr_left
  intro c hc
  exact h r (List.mem_range.mp hr) c (List.mem_range.mp hc)

theorem getD_lt_256 (l : List Nat) (h : ∀ y ∈ l, y < 256) (i : Nat) : l.getD i 0 < 256 := by
  rcases Nat.lt_or_ge i l.length with hi | hi
  · rw [List.getD_eq_getElem?_getD, List.getElem?_eq_getElem hi]
    exact h _ (List.getElem_mem hi)
  · rw [List.getD_eq_getElem?_getD, List.getElem?_eq_none hi]
    norm_num

theorem mget_lt_256 (s : List (List Nat)) (h : BytesState s) (r c : Nat) :
    mget s r c < 256 := by
  rw [mget]
  rcases Nat.lt_or_ge r s.length with hr | hr
  · apply getD_lt_256
    intro y hy
    rw [List.getD_eq_getElem?_getD, List.getElem?_eq_getElem hr] at hy
    exact h _ (List.getElem_mem hr) y hy
  · have hnil : s.getD r [] = [] := by
      rw [List.getD_eq_getElem?_getD, List.getElem?_eq_none hr]
      rfl
    rw [hnil]
    norm_num

theorem xor_lt_256 (a b : Nat) (ha : a < 256) (hb : b < 256) : a ^^^ b < 256 := by
  have h : a ^^^ b < 2 ^ 8 := Nat.xor_lt_two_pow (by norm_num; omega) (by norm_num; omega)
  norm_num at h
  exact h

end AESGo

namespace AESGo

/-! Bridges from each round operation (on a well-formed state) to the
canonical mk4 form, and the inverse lemmas for each step. -/

theorem list16_explode (l : List Nat) (h : l.length = 16) :
    ∃ b0 b1 b2 b3 b4 b5 b6 b7 b8 b9 b10 b11 b12 b13 b14 b15,
      l = [b0, b1, b2, b3, b4, b5, b6, b7, b8, b9, b10, b11, b12, b13, b14, b15] := by
  match l, h with
  | [b0, b1, b2, b3, b4, b5, b6, b7, b8, b9, b10, b11, b12, b13, b14, b15], _ =>
    exact ⟨b0, b1, b2, b3, b4, b5, b6, b7, b8, b9, b10, b11, b12, b13, b14, b15, rfl⟩

theorem subBytes_eq_mk4 (s : List (List Nat)) (h : WFState s) :
    subBytes s = mk4 fun r c => sbox.getD (mget s r c) 0 := by
  obtain ⟨x00, x01, x02, x03, x10, x11, x12, x13, x20, x21, x22, x23, x30, x31, x32, x33, rfl⟩ := state_explode s h
  rfl

theorem subBytesInverse_eq_mk4 (s : List (List Nat)) (h : WFState s) :
    subBytesInverse s = mk4 fun r c => sboxInverse.getD (mget s r c) 0 := by
  obtain ⟨x00, x01, x02, x03, x10, x11, x12, x13, x20, x21, x22, x23, x30, x31, x32, x33, rfl⟩ := state_explode s h
  rfl

theorem shiftRows_eq_mk4 (s : List (List Nat)) (h : WFState s) :
    shiftRows s = mk4 fun r c => mget s r ((r + c) % 4) := by
  obtain ⟨x00, x01, x02, x03, x10, x11, x12, x13, x20, x21, x22, x23, x30, x31, x32, x33, rfl⟩ := state_explode s h
  rfl

theorem shiftRowsInverse_eq_mk4 (s : List (List Nat)) (h : WFState s) :
    shiftRowsInverse s = mk4 fun r c => mget s r ((4 - r + c) % 4) := by
  obtain ⟨x00, x01, x02, x03, x10, x11, x12, x13, x20, x21, x22, x23, x30, x31, x32, x33, rfl⟩ := state_explode s h
  rfl

theorem mixColumns_eq_mk4 (s polys : List (List Nat)) (h : WFState s) :
    mixColumns s polys = mk4 fun r c => DotProduct (RowVector polys r) (ColumnVector s c) := by
  obtain ⟨x00, x01, x02, x03, x10, x11, x12, x13, x20, x21, x22, x23, x30, x31, x32, x33, rfl⟩ := state_explode s h
  rfl

theorem shiftRows_inverse_of_shiftRows (s : List (List Nat)) (h : WFState s) :
    shiftRowsInverse (shiftRows s) = s := by
  obtain ⟨x00, x01, x02, x03, x10, x11, x12, x13, x20, x21, x22, x23, x30, x31, x32, x33, rfl⟩ := state_explode s h
  rfl

set_option maxRecDepth 10000 in
/-- The inverse S-box undoes the forward S-box on every byte (checked by
kernel evaluation; the tables are the FIPS-197 ones fixed by the spec). -/
theorem sbox_rt : ∀ x < 256, sboxInverse.getD (sbox.getD x 0) 0 = x := by decide

theorem subBytes_inverse_of_subBytes (s : List (List Nat)) (hWF : WFState s)
    (hB : BytesState s) : subBytesInverse (subBytes s) = s := by
  have h1 : subBytesInverse (subBytes s) =
      mk4 fun r c => sboxInverse.getD (sbox.getD (mget s r c) 0) 0 := by
    rw [subBytes_eq_mk4 s hWF, subBytesInverse_eq_mk4 _ (WF_mk4 _)]
    apply mk4_ext
    intro r hr c hc
    congr 1
    rw [mget, mk4]
    interval_cases r <;> interval_cases c <;> rfl
  rw [h1]
  have h2 : (mk4 fun r c => sboxInverse.getD (sbox.getD (mget s r c) 0) 0) =
      mk4 fun r c => mget s r c := by
    apply mk4_ext
    intro r hr c hc
    exact sbox_rt (mget s r c) (mget_lt_256 s hB r c)
  rw [h2]
  obtain ⟨x00, x01, x02, x03, x10, x11, x12, x13, x20, x21, x22, x23, x30, x31, x32, x33, rfl⟩ := state_explode s hWF
  rfl

theorem addRoundKey_involutive (s : List (List Nat)) (sched : List Nat) (round : Nat)
    (h : WFState s) : addRoundKey (addRoundKey s sched round) sched round = s := by
  have h1 : addRoundKey (addRoundKey s sched round) sched round =
      mk4 fun r c => (wordVector (sched.getD (round * 4 + c) 0)).getD r 0 ^^^
        ((wordVector (sched.getD (round * 4 + c) 0)).getD r 0 ^^^ mget s r c) := by
    have hin : addRoundKey s sched round =
        mk4 fun r c => (wordVector (sched.getD (round * 4 + c) 0)).getD r 0 ^^^ mget s r c := rfl
    rw [hin]
    apply mk4_ext
    intro r hr c hc
    congr 1
    rw [mget, mk4]
    interval_cases r <;> interval_cases c <;> rfl
  rw [h1]
  have h2 : (mk4 fun r c => (wordVector (sched.getD (round * 4 + c) 0)).getD r 0 ^^^
      ((wordVector (sched.getD (round * 4 + c) 0)).getD r 0 ^^^ mget s r c)) =
      mk4 fun r c => mget s r c := by
    apply mk4_ext
    intro r hr c hc
    exact Nat.xor_cancel_left _ _
  rw [h2]
  obtain ⟨x00, x01, x02, x03, x10, x11, x12, x13, x20, x21, x22, x23, x30, x31, x32, x33, rfl⟩ := state_explode s h
  rfl

theorem mixColumns_inverse_of_mixColumns (s : List (List Nat)) (hWF : WFState s)
    (hB : BytesState s) :
    mixColumns (mixColumns s mixColumnPolynomials) mixColumnPolynomialsInverse = s := by
  obtain ⟨x00, x01, x02, x03, x10, x11, x12, x13, x20, x21, x22, x23, x30, x31, x32, x33, rfl⟩ := state_explode s hWF
  obtain ⟨⟨h00, h01, h02, h03⟩, ⟨h10, h11, h12, h13⟩, ⟨h20, h21, h22, h23⟩,
    ⟨h30, h31, h32, h33⟩⟩ := bytes_explicit hB
  have h1 : mixColumns (mixColumns [[x00, x01, x02, x03], [x10, x11, x12, x13], [x20, x21, x22, x23], [x30, x31, x32, x33]] mixColumnPolynomials) mixColumnPolynomialsInverse =
      mk4 fun r c => DotProduct (RowVector mixColumnPolynomialsInverse r)
        (ColumnVector (mixColumns [[x00, x01, x02, x03], [x10, x11, x12, x13], [x20, x21, x22, x23], [x30, x31, x32, x33]] mixColumnPolynomials) c) := rfl
  rw [h1]
  have h2 : (mk4 fun r c => DotProduct (RowVector mixColumnPolynomialsInverse r)
      (ColumnVector (mixColumns [[x00, x01, x02, x03], [x10, x11, x12, x13], [x20, x21, x22, x23], [x30, x31, x32, x33]] mixColumnPolynomials) c)) =
      mk4 fun r c => mget [[x00, x01, x02, x03], [x10, x11, x12, x13], [x20, x21, x22, x23], [x30, x31, x32, x33]] r c := by
    apply mk4_ext
    intro r hr c hc
    interval_cases r <;> interval_cases c
    · exact colInv0 x00 x10 x20 x30 h00 h10 h20 h30
    · exact colInv0 x01 x11 x21 x31 h01 h11 h21 h31
    · exact colInv0 x02 x12 x22 x32 h02 h12 h22 h32
    · exact colInv0 x03 x13 x23 x33 h03 h13 h23 h33
    · exact colInv1 x00 x10 x20 x30 h00 h10 h20 h30
    · exact colInv1 x01 x11 x21 x31 h01 h11 h21 h31
    · exact colInv1 x02 x12 x22 x32 h02 h12 h22 h32
    · exact colInv1 x03 x13 x23 x33 h03 h13 h23 h33
    · exact colInv2 x00 x10 x20 x30 h00 h10 h20 h30
    · exact colInv2 x01 x11 x21 x31 h01 h11 h21 h31
    · exact colInv2 x02 x12 x22 x32 h02 h12 h22 h32
    · exact colInv2 x03 x13 x23 x33 h03 h13 h23 h33
    · exact colInv3 x00 x10 x20 x30 h00 h10 h20 h30
    · exact colInv3 x01 x11 x21 x31 h01 h11 h21 h31
    · exact colInv3 x02 x12 x22 x32 h02 h12 h22 h32
    · exact colInv3 x03 x13 x23 x33 h03 h13 h23 h33
  rw [h2]
  rfl

theorem parse_matrixBlock (s : List (List Nat)) (h : WFState s) :
    parse (matrixBlock s) = s := by
  obtain ⟨x00, x01, x02, x03, x10, x11, x12, x13, x20, x21, x22, x23, x30, x31, x32, x33, rfl⟩ := state_explode s h
  rfl

theorem matrixBlock_parse (b : List Nat) (h : b.length = 16) :
    matrixBlock (parse b) = b := by
  obtain ⟨b0, b1, b2, b3, b4, b5, b6, b7, b8, b9, b10, b11, b12, b13, b14, b15, rfl⟩ :=
    list16_explode b h
  rfl

end AESGo

namespace AESGo

/-! Shape and byte-range preservation for the round operations, and the
inversion of the full round structure. -/

theorem WF_addRoundKey (s : List (List Nat)) (sched : List Nat) (round : Nat) :
    WFState (addRoundKey s sched round) :=
  WF_mk4 _

theorem WF_parse (b : List Nat) : WFState (parse b) := WF_mk4 _

theorem WF_subBytes (s : List (List Nat)) (h : WFState s) : WFState (subBytes s) := by
  rw [subBytes_eq_mk4 s h]; exact WF_mk4 _

theorem WF_subBytesInverse (s : List (List Nat)) (h : WFState s) :
    WFState (subBytesInverse s) := by
  rw [subBytesInverse_eq_mk4 s h]; exact WF_mk4 _

theorem WF_shiftRows (s : List (List Nat)) (h : WFState s) : WFState (shiftRows s) := by
  rw [shiftRows_eq_mk4 s h]; exact WF_mk4 _

theorem WF_shiftRowsInverse (s : List (List Nat)) (h : WFState s) :
    WFState (shiftRowsInverse s) := by
  rw [shiftRowsInverse_eq_mk4 s h]; exact WF_mk4 _

theorem WF_mixColumns (s polys : List (List Nat)) (h : WFState s) :
    WFState (mixColumns s polys) := by
  rw [mixColumns_eq_mk4 s polys h]; exact WF_mk4 _

theorem wordVector_getD_lt (w r : Nat) : (wordVector w).getD r 0 < 256 := by
  apply getD_lt_256
  intro y hy
  simp only [wordVector, List.mem_cons, List.not_mem_nil, or_false] at hy
  have h1 : w >>> 24 &&& 255 ≤ 255 := Nat.and_le_right
  have h2 : w >>> 16 &&& 255 ≤ 255 := Nat.and_le_right
  have h3 : w >>> 8 &&& 255 ≤ 255 := Nat.and_le_right
  have h4 : w &&& 255 ≤ 255 := Nat.and_le_right
  rcases hy with rfl | rfl | rfl | rfl <;> omega

theorem Bytes_addRoundKey (s : List (List Nat)) (sched : List Nat) (round : Nat)
    (hB : BytesState s) : BytesState (addRoundKey s sched round) :=
  Bytes_mk4 _ fun r _ c _ => xor_lt_256 _ _ (wordVector_getD_lt _ r) (mget_lt_256 s hB r c)

theorem Bytes_parse (b : List Nat) (hb : ∀ x ∈ b, x < 256) : BytesState (parse b) :=
  Bytes_mk4 _ fun _ _ _ _ => getD_lt_256 b hb _

set_option maxRecDepth 4000 in
theorem sbox_all_lt : ∀ y ∈ sbox, y < 256 := by decide

set_option maxRecDepth 4000 in
theorem sboxInverse_all_lt : ∀ y ∈ sboxInverse, y < 256 := by decide

theorem sbox_getD_lt (i : Nat) : sbox.getD i 0 < 256 :=
  getD_lt_256 sbox sbox_all_lt i

theorem sboxInverse_getD_lt (i : Nat) : sboxInverse.getD i 0 < 256 :=
  getD_lt_256 sboxInverse sboxInverse_all_lt i

theorem Bytes_subBytes (s : List (List Nat)) (h : WFState s) : BytesState (subBytes s) := by
  rw [subBytes_eq_mk4 s h]
  exact Bytes_mk4 _ fun _ _ _ _ => sbox_getD_lt _

theorem Bytes_subBytesInverse (s : List (List Nat)) (h : WFState s) :
    BytesState (subBytesInverse s) := by
  rw [subBytesInverse_eq_mk4 s h]
  exact Bytes_mk4 _ fun _ _ _ _ => sboxInverse_getD_lt _

theorem Bytes_shiftRows (s : List (List Nat)) (h : WFState s) (hB : BytesState s) :
    BytesState (shiftRows s) := by
  rw [shiftRows_eq_mk4 s h]
  exact Bytes_mk4 _ fun r _ c _ => mget_lt_256 s hB r _

theorem Bytes_shiftRowsInverse (s : List (List Nat)) (h : WFState s) (hB : BytesState s) :
    BytesState (shiftRowsInverse s) := by
  rw [shiftRowsInverse_eq_mk4 s h]
  exact Bytes_mk4 _ fun r _ c _ => mget_lt_256 s hB r _

theorem rowVector_lt (m : List (List Nat)) (hm : ∀ row ∈ m, ∀ x ∈ row, x < 256) (r : Nat) :
    ∀ x ∈ RowVector m r, x < 256 := by
  intro x hx
  rw [RowVector] at hx
  rcases Nat.lt_or_ge r m.length with hr | hr
  · rw [List.getD_eq_getElem?_getD, List.getElem?_eq_getElem hr] at hx
    exact hm _ (List.getElem_mem hr) x hx
  · rw [List.getD_eq_getElem?_getD, List.getElem?_eq_none hr] at hx
    simp at hx

theorem DotProduct_lt (a b : List Nat) (ha : ∀ x ∈ a, x < 256) : DotProduct a b < 256 := by
  rw [DotProduct]
  suffices h : ∀ (l : List Nat) (acc : Nat), acc < 256 →
      (l.foldl (fun out i => out ^^^ Multiply (a.getD i 0) (b.getD i 0)) acc) < 256 by
    exact h _ 0 (by norm_num)
  intro l
  induction l with
  | nil => intro acc hacc; exact hacc
  | cons i l ih =>
    intro acc hacc
    exact ih _ (xor_lt_256 _ _ hacc (multiply_lt _ _ (getD_lt_256 a ha i)))

theorem Bytes_mixColumns (s polys : List (List Nat)) (h : WFState s)
    (hpoly : ∀ row ∈ polys, ∀ x ∈ row, x < 256) : BytesState (mixColumns s polys) := by
  rw [mixColumns_eq_mk4 s polys h]
  exact Bytes_mk4 _ fun r _ c _ => DotProduct_lt _ _ (rowVector_lt polys hpoly r)

theorem mcp_bytes : ∀ row ∈ mixColumnPolynomials, ∀ x ∈ row, x < 256 := by decide

theorem mci_bytes : ∀ row ∈ mixColumnPolynomialsInverse, ∀ x ∈ row, x < 256 := by decide

theorem fold_enc_preserves (sched : List Nat) (R : List Nat) (s : List (List Nat))
    (h1 : WFState s) (h2 : BytesState s) :
    WFState (R.foldl (fun state round =>
        addRoundKey (mixColumns (shiftRows (subBytes state)) mixColumnPolynomials)
          sched round) s) ∧
    BytesState (R.foldl (fun state round =>
        addRoundKey (mixColumns (shiftRows (subBytes state)) mixColumnPolynomials)
          sched round) s) := by
  induction R generalizing s with
  | nil => exact ⟨h1, h2⟩
  | cons r R ih =>
    simp only [List.foldl_cons]
    apply ih
    · exact WF_addRoundKey _ _ _
    · apply Bytes_addRoundKey
      apply Bytes_mixColumns _ _ (WF_shiftRows _ (WF_subBytes _ h1)) mcp_bytes

theorem round_inv (sched : List Nat) (R : List Nat) (s : List (List Nat))
    (hWF : WFState s) (hB : BytesState s) :
    R.reverse.foldl (fun state round =>
        mixColumns (addRoundKey (subBytesInverse (shiftRowsInverse state)) sched round)
          mixColumnPolynomialsInverse)
      (shiftRows (subBytes (R.foldl (fun state round =>
        addRoundKey (mixColumns (shiftRows (subBytes state)) mixColumnPolynomials)
          sched round) s)))
    = shiftRows (subBytes s) := by
  induction R using List.reverseRecOn with
  | nil => rfl
  | append_singleton R r ih =>
    rw [List.foldl_append]
    simp only [List.reverse_append, List.reverse_cons, List.reverse_nil, List.nil_append,
      List.singleton_append, List.foldl_cons, List.foldl_nil]
    obtain ⟨hWFu, hBu⟩ := fold_enc_preserves sched R s hWF hB
    set u := R.foldl (fun state round =>
      addRoundKey (mixColumns (shiftRows (subBytes state)) mixColumnPolynomials)
        sched round) s with hu
    have hWF1 : WFState (mixColumns (shiftRows (subBytes u)) mixColumnPolynomials) :=
      WF_mixColumns _ _ (WF_shiftRows _ (WF_subBytes _ hWFu))
    have hB1 : BytesState (mixColumns (shiftRows (subBytes u)) mixColumnPolynomials) :=
      Bytes_mixColumns _ _ (WF_shiftRows _ (WF_subBytes _ hWFu)) mcp_bytes
    have hWF2 : WFState (addRoundKey (mixColumns (shiftRows (subBytes u))
        mixColumnPolynomials) sched r) := WF_addRoundKey _ _ _
    have hB2 : BytesState (addRoundKey (mixColumns (shiftRows (subBytes u))
        mixColumnPolynomials) sched r) := Bytes_addRoundKey _ _ _ hB1
    rw [shiftRows_inverse_of_shiftRows _ (WF_subBytes _ hWF2),
      subBytes_inverse_of_subBytes _ hWF2 hB2,
      addRoundKey_involutive _ sched r hWF1,
      mixColumns_inverse_of_mixColumns _ (WF_shiftRows _ (WF_subBytes _ hWFu))
        (Bytes_shiftRows _ (WF_subBytes _ hWFu) (Bytes_subBytes _ hWFu))]
    exact ih

theorem encrypt_decrypt_id (c : Cipher) (block : List Nat) (hlen : block.length = 16)
    (hbytes : ∀ x ∈ block, x < 256) : Decrypt c (Encrypt c block) = block := by
  rw [Encrypt, Decrypt]
  have hWF0 : WFState (addRoundKey (parse block) c.schedule 0) := WF_addRoundKey _ _ _
  have hB0 : BytesState (addRoundKey (parse block) c.schedule 0) :=
    Bytes_addRoundKey _ _ _ (Bytes_parse block hbytes)
  obtain ⟨hWF1, hB1⟩ := fold_enc_preserves c.schedule (List.range' 1 (c.numRounds - 1))
    (addRoundKey (parse block) c.schedule 0) hWF0 hB0
  rw [parse_matrixBlock _ (WF_addRoundKey _ _ _),
    addRoundKey_involutive _ _ _ (WF_shiftRows _ (WF_subBytes _ hWF1)),
    round_inv c.schedule (List.range' 1 (c.numRounds - 1)) _ hWF0 hB0,
    shiftRows_inverse_of_shiftRows _ (WF_subBytes _ hWF0),
    subBytes_inverse_of_subBytes _ hWF0 hB0,
    addRoundKey_involutive _ _ _ (WF_parse block),
    matrixBlock_parse block hlen]

end AESGo

namespace AESGo

/-! Characterization of Blockify at block size 16. -/

theorem blockify16_eq_core (l : List Nat) :
    Blockify l 16 =
      blockifyCore (if l.length % 16 > 0 then PadBytes l (l.length / 16 + 1) else l) := rfl

theorem padBytes_noop (l : List Nat) (L : Nat) (h : L ≤ l.length) : PadBytes l L = l := by
  rw [PadBytes]
  have h0 : L - l.length = 0 := by omega
  simp [h0]

theorem chunksExact_nil : chunksExact [] = [] := by
  rw [chunksExact]
  simp

theorem chunksExact_cons (l : List Nat) (h : l ≠ []) :
    chunksExact l = l.take 16 :: chunksExact (l.drop 16) := by
  rw [chunksExact]
  simp [h]

theorem chunksExact_append_last (m : Nat) (l : List Nat) (hm : 1 ≤ m)
    (hl : l.length = 16 * m) :
    chunksExact l = chunksExact (l.take (16 * (m - 1))) ++ [l.drop (16 * (m - 1))] := by
  induction m generalizing l with
  | zero => omega
  | succ m ih =>
    have hne : l ≠ [] := by
      intro h
      subst h
      simp only [List.length_nil] at hl
      omega
    rcases Nat.eq_zero_or_pos m with hm0 | hmpos
    · subst hm0
      rw [chunksExact_cons l hne]
      have ht : l.take 16 = l := List.take_of_length_le (by omega)
      have hd : l.drop 16 = [] := List.drop_eq_nil_of_le (by omega)
      simp [ht, hd, chunksExact_nil]
    · have hlen2 : (l.drop 16).length = 16 * m := by
        simp only [List.length_drop]
        omega
      rw [chunksExact_cons l hne, ih (l.drop 16) hmpos hlen2]
      simp only [Nat.succ_sub_one]
      have e3 : chunksExact (l.take (16 * m)) =
          (l.take (16 * m)).take 16 :: chunksExact ((l.take (16 * m)).drop 16) := by
        apply chunksExact_cons
        intro h0
        have hl2 := congrArg List.length h0
        simp only [List.length_take, List.length_nil] at hl2
        omega
      have e4 : (l.take (16 * m)).take 16 = l.take 16 := by
        rw [List.take_take]
        congr 1
        omega
      have e1 : (l.drop 16).take (16 * (m - 1)) = (l.take (16 * m)).drop 16 := by
        rw [List.drop_take]
        congr 1
        omega
      have e2 : (l.drop 16).drop (16 * (m - 1)) = l.drop (16 * m) := by
        rw [List.drop_drop]
        congr 1
        omega
      rw [e1, e2, e3, e4]
      simp

theorem chunksExact_flatten (m : Nat) (l : List Nat) (h : l.length = 16 * m) :
    (chunksExact l).flatten = l := by
  induction m generalizing l with
  | zero =>
    have h0 : l = [] := by simpa using h
    subst h0
    simp [chunksExact_nil]
  | succ m ih =>
    have hne : l ≠ [] := by
      intro hl
      subst hl
      simp only [List.length_nil] at h
      omega
    rw [chunksExact_cons l hne]
    simp only [List.flatten_cons]
    rw [ih (l.drop 16) (by simp only [List.length_drop]; omega)]
    exact List.take_append_drop 16 l

theorem chunksExact_block_len (m : Nat) (l : List Nat) (h : l.length = 16 * m) :
    ∀ b ∈ chunksExact l, b.length = 16 := by
  induction m generalizing l with
  | zero =>
    have h0 : l = [] := by simpa using h
    subst h0
    simp [chunksExact_nil]
  | succ m ih =>
    have hne : l ≠ [] := by
      intro hl
      subst hl
      simp only [List.length_nil] at h
      omega
    rw [chunksExact_cons l hne]
    intro b hb
    rcases List.mem_cons.mp hb with rfl | hb
    · simp only [List.length_take]
      omega
    · exact ih (l.drop 16) (by simp only [List.length_drop]; omega) b hb

theorem chunksExact_ne_nil (l : List Nat) (h : l ≠ []) : chunksExact l ≠ [] := by
  rw [chunksExact_cons l h]
  simp

theorem chunksExact_flatten_blocks (bs : List (List Nat)) (h : ∀ b ∈ bs, b.length = 16) :
    chunksExact bs.flatten = bs := by
  induction bs with
  | nil => simp [chunksExact_nil]
  | cons b bs ih =>
    have hb : b.length = 16 := h b (by simp)
    have hbne : b ≠ [] := by
      intro hb0
      rw [hb0] at hb
      simp at hb
    have hne : b ++ bs.flatten ≠ [] := by
      intro h0
      exact hbne (List.append_eq_nil.mp h0).1
    rw [List.flatten_cons, chunksExact_cons _ hne, List.take_left' hb, List.drop_left' hb,
      ih (fun x hx => h x (by simp [hx]))]

theorem blockStep_congr (p q : List Nat) (idx : List Nat)
    (h : ∀ i ∈ idx, p.getD i 0 = q.getD i 0) (st : List (List Nat) × List Nat) :
    idx.foldl (blockStep p) st = idx.foldl (blockStep q) st := by
  induction idx generalizing st with
  | nil => rfl
  | cons i idx ih =>
    simp only [List.foldl_cons]
    rw [show blockStep p st i = blockStep q st i by rw [blockStep, blockStep, h i (by simp)]]
    exact ih (fun j hj => h j (by simp [hj])) _

theorem set_zeroPad16 (seg : List Nat) (x : Nat) (h : seg.length < 16) :
    (zeroPad16 seg).set seg.length x = zeroPad16 (seg ++ [x]) := by
  rw [zeroPad16, zeroPad16, List.set_append]
  rw [if_neg (by omega)]
  have hidx : seg.length - seg.length = 0 := Nat.sub_self _
  have h1 : 16 - seg.length = (15 - seg.length) + 1 := by omega
  have h2 : 16 - (seg ++ [x]).length = 15 - seg.length := by
    simp only [List.length_append, List.length_singleton]
    omega
  rw [hidx, h1, h2, List.replicate_succ, List.set_cons_zero]
  simp

theorem replicate16_set0 (x : Nat) :
    (List.replicate 16 (0 : Nat)).set 0 x = x :: List.replicate 15 0 := rfl

theorem zeroPad16_singleton (x : Nat) : zeroPad16 [x] = x :: List.replicate 15 0 := rfl

theorem blockCore_inv (l : List Nat) :
    (List.range l.length).foldl (blockStep l) ([], List.replicate 16 0) =
      (chunksExact (l.take (16 * ((l.length - 1) / 16))),
        zeroPad16 (l.drop (16 * ((l.length - 1) / 16)))) := by
  induction l using List.reverseRecOn with
  | nil => simp [chunksExact_nil, zeroPad16]
  | append_singleton l x ih =>
    have hlen : (l ++ [x]).length = l.length + 1 := by simp
    rw [hlen, List.range_succ, List.foldl_append]
    have hagree : ∀ i ∈ List.range l.length, (l ++ [x]).getD i 0 = l.getD i 0 := by
      intro i hi
      exact List.getD_append l [x] 0 i (List.mem_range.mp hi)
    rw [blockStep_congr _ l _ hagree, ih]
    simp only [List.foldl_cons, List.foldl_nil, Nat.add_sub_cancel]
    have hx : (l ++ [x]).getD l.length 0 = x := by
      rw [List.getD_append_right l [x] 0 l.length le_rfl]
      simp
    by_cases hne : l = []
    · subst hne
      simp only [List.length_nil, List.nil_append]
      rw [blockStep]
      norm_num
      rfl
    · have hpos : 0 < l.length := List.length_pos.mpr hne
      by_cases hmod : l.length % 16 = 0
      · -- flush step
        have hm1 : 1 ≤ l.length / 16 := by omega
        have heq16 : 16 * (l.length / 16) = l.length := by omega
        have hfc : (l.length - 1) / 16 = l.length / 16 - 1 := by omega
        have hstep : blockStep (l ++ [x])
            (chunksExact (l.take (16 * ((l.length - 1) / 16))),
              zeroPad16 (l.drop (16 * ((l.length - 1) / 16)))) l.length =
            (chunksExact (l.take (16 * ((l.length - 1) / 16))) ++
                [zeroPad16 (l.drop (16 * ((l.length - 1) / 16)))],
              (List.replicate 16 0).set (l.length % 16) ((l ++ [x]).getD l.length 0)) := by
          rw [blockStep]
          simp only [if_pos (And.intro hmod hpos)]
        rw [hstep, hmod, hx, replicate16_set0]
        have htk : (l ++ [x]).take (16 * (l.length / 16)) = l := by
          rw [heq16]
          exact List.take_left l [x]
        have hdr : (l ++ [x]).drop (16 * (l.length / 16)) = [x] := by
          rw [heq16]
          exact List.drop_left l [x]
        have hseg : (l.drop (16 * (l.length / 16 - 1))).length = 16 := by
          simp only [List.length_drop]
          omega
        have hzp : zeroPad16 (l.drop (16 * (l.length / 16 - 1))) =
            l.drop (16 * (l.length / 16 - 1)) := by
          rw [zeroPad16, hseg]
          simp
        simp only [Prod.mk.injEq]
        constructor
        · rw [htk, hfc, hzp,
            chunksExact_append_last (l.length / 16) l hm1 (by omega)]
        · rw [hdr, zeroPad16_singleton]
      · -- no flush: the buffer extends
        have hq : (l.length - 1) / 16 = l.length / 16 := by omega
        have hq16 : 16 * (l.length / 16) ≤ l.length := by omega
        have hstep : blockStep (l ++ [x])
            (chunksExact (l.take (16 * ((l.length - 1) / 16))),
              zeroPad16 (l.drop (16 * ((l.length - 1) / 16)))) l.length =
            (chunksExact (l.take (16 * ((l.length - 1) / 16))),
              (zeroPad16 (l.drop (16 * ((l.length - 1) / 16)))).set (l.length % 16)
                ((l ++ [x]).getD l.length 0)) := by
          rw [blockStep]
          simp only [if_neg (fun hc => hmod (And.left hc))]
        rw [hstep, hx, hq]
        have htk : (l ++ [x]).take (16 * (l.length / 16)) = l.take (16 * (l.length / 16)) :=
          List.take_append_of_le_length hq16
        have hdr : (l ++ [x]).drop (16 * (l.length / 16)) =
            l.drop (16 * (l.length / 16)) ++ [x] :=
          List.drop_append_of_le_length hq16
        have hseg : (l.drop (16 * (l.length / 16))).length = l.length % 16 := by
          simp only [List.length_drop]
          omega
        simp only [Prod.mk.injEq]
        constructor
        · rw [htk]
        · rw [hdr, ← hseg, set_zeroPad16 _ x (by omega)]

end AESGo

namespace AESGo

/-! Derived Blockify facts and mode-layer lemmas. -/

theorem blockify_exact (l : List Nat) (h : l.length % 16 = 0) (hne : l ≠ []) :
    Blockify l 16 = chunksExact l := by
  rw [blockify16_eq_core, if_neg (by omega), blockifyCore, blockCore_inv]
  have hpos : 0 < l.length := List.length_pos.mpr hne
  have hm1 : 1 ≤ l.length / 16 := by omega
  have hfc : (l.length - 1) / 16 = l.length / 16 - 1 := by omega
  have hseg : (l.drop (16 * (l.length / 16 - 1))).length = 16 := by
    simp only [List.length_drop]
    omega
  have hzp : zeroPad16 (l.drop (16 * (l.length / 16 - 1))) =
      l.drop (16 * (l.length / 16 - 1)) := by
    rw [zeroPad16, hseg]
    simp
  simp only [hfc, hzp]
  exact (chunksExact_append_last (l.length / 16) l hm1 (by omega)).symm

theorem flatten_len16 (bs : List (List Nat)) (h : ∀ b ∈ bs, b.length = 16) :
    bs.flatten.length = 16 * bs.length := by
  induction bs with
  | nil => simp
  | cons b bs ih =>
    simp only [List.flatten_cons, List.length_append, List.length_cons,
      ih (fun x hx => h x (by simp [hx])), h b (by simp)]
    ring

theorem blockify_flatten_blocks (bs : List (List Nat)) (hne : bs ≠ [])
    (h : ∀ b ∈ bs, b.length = 16) : Blockify bs.flatten 16 = bs := by
  have hlen : bs.flatten.length = 16 * bs.length := flatten_len16 bs h
  have hfne : bs.flatten ≠ [] := by
    intro h0
    rcases bs with _ | ⟨b, bs⟩
    · exact hne rfl
    · have hb : b.length = 16 := h b (by simp)
      rw [List.flatten_cons] at h0
      have hb0 := (List.append_eq_nil.mp h0).1
      rw [hb0] at hb
      simp at hb
  rw [blockify_exact bs.flatten (by omega) hfne]
  exact chunksExact_flatten_blocks bs h

theorem blockify_trailing (l : List Nat) (h : 0 < l.length % 16) :
    (Blockify l 16).getLast? =
      some (l.drop (16 * (l.length / 16)) ++ List.replicate (16 - l.length % 16) 0) := by
  have hpos : 0 < l.length := by omega
  rw [blockify16_eq_core, if_pos h, padBytes_noop l _ (by omega), blockifyCore, blockCore_inv]
  simp only [List.getLast?_concat]
  have hq : (l.length - 1) / 16 = l.length / 16 := by omega
  have hseg : (l.drop (16 * (l.length / 16))).length = l.length % 16 := by
    simp only [List.length_drop]
    omega
  rw [hq, zeroPad16, hseg]

theorem blockify_block_len (bytes : List Nat) : ∀ b ∈ Blockify bytes 16, b.length = 16 := by
  rw [blockify16_eq_core, blockifyCore, blockCore_inv]
  set p := if bytes.length % 16 > 0 then PadBytes bytes (bytes.length / 16 + 1) else bytes
  intro b hb
  rcases List.mem_append.mp hb with hb | hb
  · have hlen : (p.take (16 * ((p.length - 1) / 16))).length =
        16 * ((p.length - 1) / 16) := by
      simp only [List.length_take]
      omega
    exact chunksExact_block_len _ _ hlen b hb
  · have hb2 : b = zeroPad16 (p.drop (16 * ((p.length - 1) / 16))) := List.mem_singleton.mp hb
    rw [hb2, zeroPad16]
    simp only [List.length_append, List.length_replicate, List.length_drop]
    omega

theorem XOR_length (a b : List Nat) : (XOR a b).length = a.length := by
  simp [XOR]

theorem XOR_bytes (a b : List Nat) (ha : ∀ x ∈ a, x < 256) (hb : ∀ x ∈ b, x < 256) :
    ∀ x ∈ XOR a b, x < 256 := by
  intro x hx
  simp only [XOR, List.mem_map, List.mem_range] at hx
  obtain ⟨i, _, rfl⟩ := hx
  exact xor_lt_256 _ _ (getD_lt_256 b hb i) (getD_lt_256 a ha _)

theorem XOR_XOR_cancel (b p : List Nat) (hb : b.length = 16) (hp : p.length = 16) :
    XOR (XOR b p) p = b := by
  obtain ⟨b0, b1, b2, b3, b4, b5, b6, b7, b8, b9, b10, b11, b12, b13, b14, b15, rfl⟩ := list16_explode b hb
  obtain ⟨p0, p1, p2, p3, p4, p5, p6, p7, p8, p9, p10, p11, p12, p13, p14, p15, rfl⟩ := list16_explode p hp
  have h1 : XOR (XOR [b0, b1, b2, b3, b4, b5, b6, b7, b8, b9, b10, b11, b12, b13, b14, b15] [p0, p1, p2, p3, p4, p5, p6, p7, p8, p9, p10, p11, p12, p13, p14, p15]) [p0, p1, p2, p3, p4, p5, p6, p7, p8, p9, p10, p11, p12, p13, p14, p15] = [p0 ^^^ (p0 ^^^ b0), p1 ^^^ (p1 ^^^ b1), p2 ^^^ (p2 ^^^ b2), p3 ^^^ (p3 ^^^ b3), p4 ^^^ (p4 ^^^ b4), p5 ^^^ (p5 ^^^ b5), p6 ^^^ (p6 ^^^ b6), p7 ^^^ (p7 ^^^ b7), p8 ^^^ (p8 ^^^ b8), p9 ^^^ (p9 ^^^ b9), p10 ^^^ (p10 ^^^ b10), p11 ^^^ (p11 ^^^ b11), p12 ^^^ (p12 ^^^ b12), p13 ^^^ (p13 ^^^ b13), p14 ^^^ (p14 ^^^ b14), p15 ^^^ (p15 ^^^ b15)] := rfl
  rw [h1]
  simp [Nat.xor_cancel_left]

theorem xorK_cancel (ks : List Nat) (b : List Nat) (hb : b.length = 16) :
    ((List.range 16).map fun i => ks.getD i 0 ^^^
      (((List.range 16).map fun j => ks.getD j 0 ^^^ b.getD j 0).getD i 0)) = b := by
  obtain ⟨b0, b1, b2, b3, b4, b5, b6, b7, b8, b9, b10, b11, b12, b13, b14, b15, rfl⟩ := list16_explode b hb
  have h1 : ((List.range 16).map fun i => ks.getD i 0 ^^^
      (((List.range 16).map fun j => ks.getD j 0 ^^^ [b0, b1, b2, b3, b4, b5, b6, b7, b8, b9, b10, b11, b12, b13, b14, b15].getD j 0).getD i 0)) = [ks.getD 0 0 ^^^ (ks.getD 0 0 ^^^ b0), ks.getD 1 0 ^^^ (ks.getD 1 0 ^^^ b1), ks.getD 2 0 ^^^ (ks.getD 2 0 ^^^ b2), ks.getD 3 0 ^^^ (ks.getD 3 0 ^^^ b3), ks.getD 4 0 ^^^ (ks.getD 4 0 ^^^ b4), ks.getD 5 0 ^^^ (ks.getD 5 0 ^^^ b5), ks.getD 6 0 ^^^ (ks.getD 6 0 ^^^ b6), ks.getD 7 0 ^^^ (ks.getD 7 0 ^^^ b7), ks.getD 8 0 ^^^ (ks.getD 8 0 ^^^ b8), ks.getD 9 0 ^^^ (ks.getD 9 0 ^^^ b9), ks.getD 10 0 ^^^ (ks.getD 10 0 ^^^ b10), ks.getD 11 0 ^^^ (ks.getD 11 0 ^^^ b11), ks.getD 12 0 ^^^ (ks.getD 12 0 ^^^ b12), ks.getD 13 0 ^^^ (ks.getD 13 0 ^^^ b13), ks.getD 14 0 ^^^ (ks.getD 14 0 ^^^ b14), ks.getD 15 0 ^^^ (ks.getD 15 0 ^^^ b15)] := rfl
  rw [h1]
  simp [Nat.xor_cancel_left]

end AESGo

namespace AESGo

theorem nonce_eq : LittleEndian 0 8 ++ LittleEndian 0 8 = List.replicate 16 0 := rfl

theorem ctr_fold (enc : List Nat → List Nat) (blocks : List (List Nat)) (acc : List Nat)
    (n : Nat) :
    blocks.foldl (fun (st : List Nat × Nat) b =>
        let nonceBytes := LittleEndian 0 8 ++ LittleEndian 0 8
        let keystream := enc nonceBytes
        let encrypted := (List.range 16).map fun i => keystream.getD i 0 ^^^ b.getD i 0
        (st.1 ++ encrypted, st.2 + 1)) (acc, n) =
      (acc ++ (blocks.map fun b => (List.range 16).map fun i =>
        (enc (List.replicate 16 0)).getD i 0 ^^^ b.getD i 0).flatten, n + blocks.length) := by
  induction blocks generalizing acc n with
  | nil => simp
  | cons b bs ih =>
    simp only [List.foldl_cons, List.map_cons, List.flatten_cons, List.length_cons]
    rw [ih, nonce_eq]
    simp only [Prod.mk.injEq]
    constructor
    · rw [List.append_assoc]
    · omega

theorem cbc_enc_fold (enc : List Nat → List Nat) (blocks : List (List Nat))
    (acc prev : List Nat) :
    (blocks.foldl (fun (st : List Nat × List Nat) b =>
        let encrypted := enc (XOR b st.2)
        (st.1 ++ encrypted, encrypted)) (acc, prev)).1 =
      acc ++ (cbcChain enc prev blocks).flatten := by
  induction blocks generalizing acc prev with
  | nil => simp [cbcChain]
  | cons b bs ih =>
    simp only [List.foldl_cons, cbcChain, List.flatten_cons]
    rw [ih]
    rw [List.append_assoc]

theorem cbcChain_len (enc : List Nat → List Nat) (henclen : ∀ b, (enc b).length = 16) :
    ∀ (blocks : List (List Nat)) (prev : List Nat), ∀ e ∈ cbcChain enc prev blocks,
      e.length = 16 := by
  intro blocks
  induction blocks with
  | nil => intro prev e he; simp [cbcChain] at he
  | cons b bs ih =>
    intro prev e he
    rw [cbcChain] at he
    rcases List.mem_cons.mp he with rfl | he
    · exact henclen _
    · exact ih _ e he

theorem cbcChain_ne_nil (enc : List Nat → List Nat) (prev : List Nat) (b : List Nat)
    (bs : List (List Nat)) : cbcChain enc prev (b :: bs) ≠ [] := by
  rw [cbcChain]
  simp

theorem cbc_roundtrip_fold (enc dec : List Nat → List Nat)
    (henclen : ∀ b, (enc b).length = 16)
    (hencbytes : ∀ b, (∀ x ∈ b, x < 256) → ∀ x ∈ enc b, x < 256)
    (hdec : ∀ b, b.length = 16 → (∀ x ∈ b, x < 256) → dec (enc b) = b) :
    ∀ (blocks : List (List Nat)), (∀ b ∈ blocks, b.length = 16 ∧ ∀ x ∈ b, x < 256) →
      ∀ (prev : List Nat), prev.length = 16 → (∀ x ∈ prev, x < 256) →
      ∀ (acc : List Nat),
      ((cbcChain enc prev blocks).foldl (fun (st : List Nat × List Nat) b =>
          let block := dec b
          let decrypted := XOR block st.2
          (st.1 ++ decrypted, b)) (acc, prev)).1 = acc ++ blocks.flatten := by
  intro blocks
  induction blocks with
  | nil =>
    intro _ prev _ _ acc
    simp [cbcChain]
  | cons b bs ih =>
    intro hb prev hprev hprevb acc
    obtain ⟨hblen, hbbytes⟩ := hb b (by simp)
    have hxlen : (XOR b prev).length = 16 := by rw [XOR_length, hblen]
    have hxbytes : ∀ x ∈ XOR b prev, x < 256 := XOR_bytes b prev hbbytes hprevb
    simp only [cbcChain, List.foldl_cons, List.flatten_cons]
    rw [hdec _ hxlen hxbytes, XOR_XOR_cancel b prev hblen hprev,
      ih (fun x hx => hb x (by simp [hx])) (enc (XOR b prev)) (henclen _)
        (hencbytes _ hxbytes) (acc ++ b)]
    rw [List.append_assoc]

theorem matrixBlock_length (m : List (List Nat)) : (matrixBlock m).length = 16 := rfl

theorem matrixBlock_bytes (m : List (List Nat)) (h : BytesState m) :
    ∀ x ∈ matrixBlock m, x < 256 := by
  intro x hx
  simp only [matrixBlock, List.mem_flatten, List.mem_map, List.mem_range] at hx
  obtain ⟨inner, ⟨row, hrow, rfl⟩, hx⟩ := hx
  simp only [List.mem_map, List.mem_range] at hx
  obtain ⟨col, hcol, rfl⟩ := hx
  exact mget_lt_256 m h col row

theorem Encrypt_length (c : Cipher) (block : List Nat) : (Encrypt c block).length = 16 := by
  rw [Encrypt]
  exact matrixBlock_length _

theorem Encrypt_bytes (c : Cipher) (block : List Nat) (hb : ∀ x ∈ block, x < 256) :
    ∀ x ∈ Encrypt c block, x < 256 := by
  rw [Encrypt]
  apply matrixBlock_bytes
  apply Bytes_addRoundKey
  obtain ⟨hWF1, hB1⟩ := fold_enc_preserves c.schedule (List.range' 1 (c.numRounds - 1))
    (addRoundKey (parse block) c.schedule 0) (WF_addRoundKey (parse block) c.schedule 0)
    (Bytes_addRoundKey _ _ _ (Bytes_parse block hb))
  exact Bytes_shiftRows _ (WF_subBytes _ hWF1) (Bytes_subBytes _ hWF1)

end AESGo

namespace AESGo

/-! Termination and remainder bound for the Mod loop. -/

theorem testBit_msb (x i : Nat) (h1 : 2 ^ i ≤ x) (h2 : x < 2 ^ (i + 1)) :
    x.testBit i = true := by
  rw [Nat.testBit_to_div_mod]
  have hp : 0 < 2 ^ i := Nat.two_pow_pos i
  have hdiv : x / 2 ^ i = 1 := by
    apply Nat.div_eq_of_lt_le
    · simpa using h1
    · have : 2 ^ (i + 1) = 2 * 2 ^ i := by ring
      omega
  simp [hdiv]

theorem shiftLeft_ne_zero (d k : Nat) (hd : d ≠ 0) : d <<< k ≠ 0 := by
  rw [Nat.shiftLeft_eq]
  exact Nat.mul_ne_zero hd (Nat.pos_iff_ne_zero.mp (Nat.two_pow_pos k))

theorem xor_drop (r d : Nat) (hr : r ≠ 0) (hd : d ≠ 0) (hle : bitsLen d ≤ bitsLen r) :
    bitsLen (r ^^^ (d <<< (bitsLen r - bitsLen d))) < bitsLen r := by
  have hn := bitsLen_pos r hr
  have hs : bitsLen (d <<< (bitsLen r - bitsLen d)) = bitsLen r := by
    rw [bitsLen_shiftLeft d _ hd]
    omega
  have hsne : d <<< (bitsLen r - bitsLen d) ≠ 0 := shiftLeft_ne_zero d _ hd
  have heq : bitsLen r - 1 + 1 = bitsLen r := by omega
  have hlt : r ^^^ (d <<< (bitsLen r - bitsLen d)) < 2 ^ (bitsLen r - 1) := by
    apply Nat.lt_pow_two_of_testBit
    intro i hi
    rcases Nat.lt_or_ge i (bitsLen r) with hilt | hige
    · have hieq : i = bitsLen r - 1 := by omega
      subst hieq
      rw [Nat.testBit_xor]
      have ht1 : r.testBit (bitsLen r - 1) = true := by
        apply testBit_msb
        · exact bitsLen_ge r hr
        · rw [heq]
          exact bitsLen_lt r
      have ht2 : (d <<< (bitsLen r - bitsLen d)).testBit (bitsLen r - 1) = true := by
        apply testBit_msb
        · have h := bitsLen_ge _ hsne
          rw [hs] at h
          exact h
        · rw [heq]
          have h2 := bitsLen_lt (d <<< (bitsLen r - bitsLen d))
          rw [hs] at h2
          exact h2
      rw [ht1, ht2]
      rfl
    · rw [Nat.testBit_xor, testBit_ge_bitsLen r i hige,
        testBit_ge_bitsLen _ i (by rw [hs]; exact hige)]
      rfl
  have := bitsLen_le_of_lt_two_pow _ _ hlt
  omega

theorem modFuel_exit (r d : Nat) (hcond : ¬(r ≠ 0 ∧ degree d ≤ degree r)) (fuel : Nat) :
    modFuel fuel r d = some r := by
  cases fuel with
  | zero => rw [modFuel, if_neg hcond]
  | succ fuel => rw [modFuel, if_neg hcond]

theorem modFuel_some (n : Nat) : ∀ r d fuel, d ≠ 0 → bitsLen r ≤ n → n ≤ fuel →
    ∃ s, modFuel fuel r d = some s ∧ (s = 0 ∨ bitsLen s < bitsLen d) := by
  induction n with
  | zero =>
    intro r d fuel hd hbl _
    have hr0 : r = 0 := by
      by_contra h0
      have := bitsLen_pos r h0
      omega
    subst hr0
    exact ⟨0, modFuel_exit 0 d (by simp) fuel, Or.inl rfl⟩
  | succ n ih =>
    intro r d fuel hd hbl hf
    by_cases hcond : r ≠ 0 ∧ degree d ≤ degree r
    · obtain ⟨hr0, hdeg⟩ := hcond
      have hdegn : bitsLen d ≤ bitsLen r := by
        rw [degree, degree, if_neg hd, if_neg hr0] at hdeg
        exact_mod_cast hdeg
      have htn : (degree r - degree d).toNat = bitsLen r - bitsLen d := by
        rw [degree, degree, if_neg hd, if_neg hr0]
        omega
      have hdrop := xor_drop r d hr0 hd hdegn
      cases fuel with
      | zero => omega
      | succ fuel =>
        rw [modFuel, if_pos ⟨hr0, hdeg⟩, htn]
        exact ih (r ^^^ (d <<< (bitsLen r - bitsLen d))) d fuel hd (by omega) (by omega)
    · refine ⟨r, modFuel_exit r d hcond fuel, ?_⟩
      by_cases hr0 : r = 0
      · exact Or.inl hr0
      · right
        have hnd : ¬ degree d ≤ degree r := by tauto
        rw [degree, degree, if_neg hd, if_neg hr0] at hnd
        by_contra hge
        exact hnd (by exact_mod_cast (by omega : bitsLen d ≤ bitsLen r))

theorem modFuel_zero_divisor (r : Nat) (hr : r ≠ 0) : ∀ fuel, modFuel fuel r 0 = none := by
  have hcond : r ≠ 0 ∧ degree 0 ≤ degree r := by
    refine ⟨hr, ?_⟩
    rw [degree, degree, if_pos rfl, if_neg hr]
    have : (0 : Int) ≤ (bitsLen r : Int) := by positivity
    omega
  have hstay : r ^^^ (0 <<< (degree r - degree 0).toNat) = r := by
    rw [Nat.zero_shiftLeft]
    simp
  intro fuel
  induction fuel with
  | zero => rw [modFuel, if_pos hcond]
  | succ fuel ih =>
    rw [modFuel, if_pos hcond, hstay]
    exact ih

end AESGo

namespace AESGo

/-! Remaining helper lemmas and the claim theorems. -/

theorem chunksExact_sub (n : Nat) : ∀ (l : List Nat), l.length ≤ n →
    ∀ b ∈ chunksExact l, ∀ x ∈ b, x ∈ l := by
  induction n with
  | zero =>
    intro l hlen b hb
    have h0 : l = [] := by
      cases l with
      | nil => rfl
      | cons a l => simp at hlen
    subst h0
    rw [chunksExact_nil] at hb
    simp at hb
  | succ n ih =>
    intro l hlen b hb x hx
    by_cases h0 : l = []
    · subst h0
      rw [chunksExact_nil] at hb
      simp at hb
    · rw [chunksExact_cons l h0] at hb
      rcases List.mem_cons.mp hb with rfl | hb
      · exact List.mem_of_mem_take hx
      · have hpos : 0 < l.length := List.length_pos.mpr h0
        have hdl : (l.drop 16).length ≤ n := by
          simp only [List.length_drop]
          omega
        exact List.mem_of_mem_drop (ih (l.drop 16) hdl b hb x hx)

set_option maxRecDepth 100000 in
/-- Sanity check: with the spec-modelled tables, the embedded cipher
reproduces the FIPS-197 Appendix C.1 AES-128 vector, so the AES-256
mismatch below is attributable to the key schedule alone. -/
theorem aes128_matches_fips :
    Encrypt (NewCipher (NewKey [0x00, 0x01, 0x02, 0x03, 0x04, 0x05, 0x06, 0x07, 0x08, 0x09, 0x0a, 0x0b, 0x0c, 0x0d, 0x0e, 0x0f])) [0x00, 0x11, 0x22, 0x33, 0x44, 0x55, 0x66, 0x77, 0x88, 0x99, 0xaa, 0xbb, 0xcc, 0xdd, 0xee, 0xff] = [0x69, 0xc4, 0xe0, 0xd8, 0x6a, 0x7b, 0x04, 0x30, 0xd8, 0xcd, 0xb7, 0x80, 0x70, 0xb4, 0xc5, 0x5a] := by decide

/-- Claim C1: for every AES key of 16, 24, or 32 bytes and every 16-byte
block P, the cipher built from that key satisfies
Decrypt (Encrypt P) = P. -/
theorem claim_c1 (key block : List Nat)
    (hkey : key.length = 16 ∨ key.length = 24 ∨ key.length = 32)
    (hlen : block.length = 16) (hbytes : ∀ x ∈ block, x < 256) :
    Decrypt (NewCipher (NewKey key)) (Encrypt (NewCipher (NewKey key)) block) = block :=
  encrypt_decrypt_id (NewCipher (NewKey key)) block hlen hbytes

/-- Witness for C1 at a concrete 32-byte key and block. -/
theorem claim_c1_witness :
    ((List.replicate 32 (7 : Nat)).length = 16 ∨ (List.replicate 32 (7 : Nat)).length = 24 ∨
      (List.replicate 32 (7 : Nat)).length = 32) ∧
    (List.replicate 16 (1 : Nat)).length = 16 ∧ (∀ x ∈ List.replicate 16 (1 : Nat), x < 256) ∧
    Decrypt (NewCipher (NewKey (List.replicate 32 7)))
      (Encrypt (NewCipher (NewKey (List.replicate 32 7))) (List.replicate 16 1)) =
      List.replicate 16 1 :=
  ⟨by decide, by decide, by decide,
    claim_c1 (List.replicate 32 7) (List.replicate 16 1) (by decide) (by decide) (by decide)⟩

set_option maxRecDepth 100000 in
/-- Claim C2 (code bug): encrypting the FIPS-197 Appendix C.3 plaintext
under the C.3 AES-256 key produces eb bb 61 b1 87 94 d6 e6 7d 2c 1c f8
ee c9 79 3e, not the FIPS-197 ciphertext 8e a2 b7 ca 51 67 45 bf ea fc
49 90 4b 49 60 89: the expandKey branch tests numColumns > 6 (always
false, numColumns = 4) instead of the key word count, so the extra
AES-256 word substitution of FIPS-197 never happens. -/
theorem claim_c2_divergence :
    Encrypt (NewCipher (NewKey [0x00, 0x01, 0x02, 0x03, 0x04, 0x05, 0x06, 0x07, 0x08, 0x09, 0x0a, 0x0b, 0x0c, 0x0d, 0x0e, 0x0f, 0x10, 0x11, 0x12, 0x13, 0x14, 0x15, 0x16, 0x17, 0x18, 0x19, 0x1a, 0x1b, 0x1c, 0x1d, 0x1e, 0x1f])) [0x00, 0x11, 0x22, 0x33, 0x44, 0x55, 0x66, 0x77, 0x88, 0x99, 0xaa, 0xbb, 0xcc, 0xdd, 0xee, 0xff] = [0xeb, 0xbb, 0x61, 0xb1, 0x87, 0x94, 0xd6, 0xe6, 0x7d, 0x2c, 0x1c, 0xf8, 0xee, 0xc9, 0x79, 0x3e] ∧
    [0xeb, 0xbb, 0x61, 0xb1, 0x87, 0x94, 0xd6, 0xe6, 0x7d, 0x2c, 0x1c, 0xf8, 0xee, 0xc9, 0x79, 0x3e] ≠ [0x8e, 0xa2, 0xb7, 0xca, 0x51, 0x67, 0x45, 0xbf, 0xea, 0xfc, 0x49, 0x90, 0x4b, 0x49, 0x60, 0x89] := by
  constructor
  · decide
  · decide

/-- Claim C3: every CTR Encrypt output is the blockified input XORed
blockwise with the encryption of the all-zero nonce block, and the stored
counter value never influences the output. -/
theorem claim_c3 (enc : List Nat → List Nat) (nonce : Nat) (bytes : List Nat) :
    (ctrEncrypt enc nonce bytes).1 =
      ((Blockify bytes 16).map fun b => (List.range 16).map fun i =>
        (enc (List.replicate 16 0)).getD i 0 ^^^ b.getD i 0).flatten ∧
    ∀ nonce2 : Nat, (ctrEncrypt enc nonce bytes).1 = (ctrEncrypt enc nonce2 bytes).1 := by
  have h : ∀ n : Nat, (ctrEncrypt enc n bytes).1 =
      ((Blockify bytes 16).map fun b => (List.range 16).map fun i =>
        (enc (List.replicate 16 0)).getD i 0 ^^^ b.getD i 0).flatten := by
    intro n
    rw [ctrEncrypt, ctr_fold]
    simp
  exact ⟨h nonce, fun nonce2 => (h nonce).trans (h nonce2).symm⟩

/-- Claim C4: in key expansion with Nb = 4, for positions i with
i mod Nk different from 0 the temporary word is substituted exactly when
Nk > 6 and i mod Nb = 4 (with Nb = 4 this never happens, and neither
does the substitution in the source, whose condition tests Nb > 6):
the schedule produced under the claim discipline equals the source
schedule. -/
theorem claim_c4 (key : List Nat) (nk : Nat) (hnk : nk = 4 ∨ nk = 6 ∨ nk = 8) :
    expandKey key (6 + nk) nk 4 = expandKeyClaim key (6 + nk) nk 4 := by
  rw [expandKey, expandKeyClaim]
  have hfun : (fun (out : List Nat) i =>
      let t := out.getD (i - 1) 0
      let word :=
        if i % nk = 0 then SubstituteWord (RotateWord t) ^^^ Rcon (i / nk - 1)
        else if 4 > 6 ∧ i % 4 = 4 then SubstituteWord t
        else t
      out ++ [out.getD (i - nk) 0 ^^^ word]) =
      (fun (out : List Nat) i =>
        let t := out.getD (i - 1) 0
        let word :=
          if i % nk = 0 then SubstituteWord (RotateWord t) ^^^ Rcon (i / nk - 1)
          else if nk > 6 ∧ i % 4 = 4 then SubstituteWord t
          else t
        out ++ [out.getD (i - nk) 0 ^^^ word]) := by
    funext out i
    by_cases h0 : i % nk = 0
    · simp [h0]
    · have h4 : ¬(i % 4 = 4) := by omega
      simp [h0, h4]
  rw [hfun]

/-- Witness for C4 at Nk = 8. -/
theorem claim_c4_witness :
    ((8 : Nat) = 4 ∨ (8 : Nat) = 6 ∨ (8 : Nat) = 8) ∧
    expandKey (List.replicate 8 3) (6 + 8) 8 4 = expandKeyClaim (List.replicate 8 3) (6 + 8) 8 4 :=
  ⟨by decide, claim_c4 (List.replicate 8 3) 8 (by decide)⟩

/-- Claim C5: emitting the state parsed from a 16-byte block returns the
block itself. -/
theorem claim_c5 (b : List Nat) (h : b.length = 16) : matrixBlock (parse b) = b :=
  matrixBlock_parse b h

/-- Witness for C5 at a concrete block. -/
theorem claim_c5_witness :
    (List.replicate 16 (9 : Nat)).length = 16 ∧
    matrixBlock (parse (List.replicate 16 9)) = List.replicate 16 9 :=
  ⟨by decide, claim_c5 (List.replicate 16 9) (by decide)⟩

/-- Counterexample to C6 as stated: blockifying the single byte 1 (a
final partial block of r = 1 byte) does not pad with fifteen bytes of
value 15. -/
theorem claim_c6_counterexample : Blockify [1] 16 ≠ [1 :: List.replicate 15 15] := by decide

/-- Claim C6 as amended: for an input whose final partial block has r
bytes, 0 < r < 16, the final block of Blockify is that partial block
padded with 16 - r bytes of value 0 (the PadBytes call receives a block
count rather than a byte length and appends nothing; the zero-initialised
block buffer supplies the padding). -/
theorem claim_c6_amended (bytes : List Nat) (h : 0 < bytes.length % 16) :
    (Blockify bytes 16).getLast? =
      some (bytes.drop (16 * (bytes.length / 16)) ++
        List.replicate (16 - bytes.length % 16) 0) :=
  blockify_trailing bytes h

/-- Witness for the amended C6 at the 1-byte input. -/
theorem claim_c6_amended_witness :
    0 < ([1] : List Nat).length % 16 ∧
    (Blockify [1] 16).getLast? =
      some (([1] : List Nat).drop (16 * (([1] : List Nat).length / 16)) ++
        List.replicate (16 - ([1] : List Nat).length % 16) 0) :=
  ⟨by decide, claim_c6_amended [1] (by decide)⟩

set_option maxRecDepth 100000 in
/-- Counterexample to C7 as stated: with the AES cipher on the all-zero
16-byte key, CTR decrypt of CTR encrypt of the single byte 1 returns a
16-byte zero-padded block, not the original 1-byte string. -/
theorem claim_c7_counterexample :
    (ctrDecrypt (Encrypt (NewCipher (NewKey (List.replicate 16 0)))) 0
      ((ctrEncrypt (Encrypt (NewCipher (NewKey (List.replicate 16 0)))) 0 [1]).1)).1 ≠
      [1] := by decide

/-- Claim C7 as amended: CTR decrypt of CTR encrypt returns the input for
every cipher and every byte string whose length is a nonzero multiple of
16 (independently of both stored counter values, which the keystream
never uses). -/
theorem claim_c7_amended (enc : List Nat → List Nat) (n1 n2 : Nat) (P : List Nat)
    (hlen : P.length % 16 = 0) (hne : P ≠ []) :
    (ctrDecrypt enc n2 (ctrEncrypt enc n1 P).1).1 = P := by
  have hchunks : Blockify P 16 = chunksExact P := blockify_exact P hlen hne
  have hblen : ∀ b ∈ chunksExact P, b.length = 16 :=
    chunksExact_block_len (P.length / 16) P (by omega)
  have hout1 : (ctrEncrypt enc n1 P).1 =
      ((chunksExact P).map fun b => (List.range 16).map fun i =>
        (enc (List.replicate 16 0)).getD i 0 ^^^ b.getD i 0).flatten := by
    rw [ctrEncrypt, ctr_fold, hchunks]
    simp
  rw [ctrDecrypt, hout1]
  have hxne : ((chunksExact P).map fun b => (List.range 16).map fun i =>
      (enc (List.replicate 16 0)).getD i 0 ^^^ b.getD i 0) ≠ [] := by
    simp only [ne_eq, List.map_eq_nil_iff]
    exact chunksExact_ne_nil P hne
  have hxlen : ∀ b ∈ (chunksExact P).map fun b => (List.range 16).map fun i =>
      (enc (List.replicate 16 0)).getD i 0 ^^^ b.getD i 0, b.length = 16 := by
    intro b hb
    simp only [List.mem_map] at hb
    obtain ⟨b0, _, rfl⟩ := hb
    simp
  rw [ctrEncrypt, blockify_flatten_blocks _ hxne hxlen, ctr_fold]
  simp only [List.nil_append, List.map_map]
  have hmap : ((chunksExact P).map ((fun b => (List.range 16).map fun i =>
      (enc (List.replicate 16 0)).getD i 0 ^^^ b.getD i 0) ∘ fun b =>
        (List.range 16).map fun i =>
          (enc (List.replicate 16 0)).getD i 0 ^^^ b.getD i 0)) =
      (chunksExact P).map id := by
    apply List.map_congr_left
    intro b hb
    simp only [Function.comp_apply, id_eq]
    exact xorK_cancel (enc (List.replicate 16 0)) b (hblen b hb)
  rw [hmap, List.map_id]
  exact chunksExact_flatten (P.length / 16) P (by omega)

/-- Witness for the amended C7 with the identity block function and a
16-byte input. -/
theorem claim_c7_amended_witness :
    (List.replicate 16 (2 : Nat)).length % 16 = 0 ∧ (List.replicate 16 (2 : Nat)) ≠ [] ∧
    (ctrDecrypt (fun b => b) 5 ((ctrEncrypt (fun b => b) 3 (List.replicate 16 2)).1)).1 =
      List.replicate 16 2 :=
  ⟨by decide, by decide,
    claim_c7_amended (fun b => b) 3 5 (List.replicate 16 2) (by decide) (by decide)⟩

set_option maxRecDepth 100000 in
/-- Counterexample to C8 as stated: the empty string has length a
multiple of 16, but CBC decrypt of CBC encrypt of the empty string (with
the AES cipher on the all-zero key and the all-zero IV) returns sixteen
zero bytes, not the empty string, because Blockify turns the empty input
into one zero block. -/
theorem claim_c8_counterexample :
    cbcDecrypt (Decrypt (NewCipher (NewKey (List.replicate 16 0)))) (List.replicate 16 0)
      (cbcEncrypt (Encrypt (NewCipher (NewKey (List.replicate 16 0))))
        (List.replicate 16 0) []) ≠ ([] : List Nat) := by decide

/-- Claim C8 as amended: for every valid AES key, every 16-byte IV of
bytes, and every byte string P whose length is a nonzero multiple of 16,
CBC decrypt of CBC encrypt returns P. -/
theorem claim_c8_amended (key iv P : List Nat)
    (hkey : key.length = 16 ∨ key.length = 24 ∨ key.length = 32)
    (hiv : iv.length = 16) (hivb : ∀ x ∈ iv, x < 256)
    (hlen : P.length % 16 = 0) (hne : P ≠ []) (hpb : ∀ x ∈ P, x < 256) :
    cbcDecrypt (Decrypt (NewCipher (NewKey key))) iv
      (cbcEncrypt (Encrypt (NewCipher (NewKey key))) iv P) = P := by
  have hchunks : Blockify P 16 = chunksExact P := blockify_exact P hlen hne
  have hblen : ∀ b ∈ chunksExact P, b.length = 16 :=
    chunksExact_block_len (P.length / 16) P (by omega)
  have hbbytes : ∀ b ∈ chunksExact P, ∀ x ∈ b, x < 256 := by
    intro b hb x hx
    exact hpb x (chunksExact_sub P.length P le_rfl b hb x hx)
  have henc : cbcEncrypt (Encrypt (NewCipher (NewKey key))) iv P =
      (cbcChain (Encrypt (NewCipher (NewKey key))) iv (chunksExact P)).flatten := by
    rw [cbcEncrypt, hchunks, cbc_enc_fold]
    simp
  rw [henc, cbcDecrypt]
  have hchne : cbcChain (Encrypt (NewCipher (NewKey key))) iv (chunksExact P) ≠ [] := by
    have := chunksExact_ne_nil P hne
    cases hc : chunksExact P with
    | nil => exact absurd hc this
    | cons b bs => exact cbcChain_ne_nil _ iv b bs
  have hchlen : ∀ e ∈ cbcChain (Encrypt (NewCipher (NewKey key))) iv (chunksExact P),
      e.length = 16 :=
    cbcChain_len _ (Encrypt_length _) (chunksExact P) iv
  rw [blockify_flatten_blocks _ hchne hchlen]
  rw [cbc_roundtrip_fold (Encrypt (NewCipher (NewKey key)))
    (Decrypt (NewCipher (NewKey key))) (Encrypt_length _)
    (fun b hb => Encrypt_bytes _ b hb)
    (fun b hb1 hb2 => encrypt_decrypt_id _ b hb1 hb2)
    (chunksExact P) (fun b hb => ⟨hblen b hb, hbbytes b hb⟩) iv hiv hivb []]
  · simp
    exact chunksExact_flatten (P.length / 16) P (by omega)

/-- Witness for the amended C8 at concrete key, IV and a 16-byte input. -/
theorem claim_c8_amended_witness :
    ((List.replicate 16 (0 : Nat)).length = 16 ∨ (List.replicate 16 (0 : Nat)).length = 24 ∨
      (List.replicate 16 (0 : Nat)).length = 32) ∧
    (List.replicate 16 (3 : Nat)).length = 16 ∧
    (List.replicate 16 (4 : Nat)).length % 16 = 0 ∧
    cbcDecrypt (Decrypt (NewCipher (NewKey (List.replicate 16 0)))) (List.replicate 16 3)
      (cbcEncrypt (Encrypt (NewCipher (NewKey (List.replicate 16 0))))
        (List.replicate 16 3) (List.replicate 16 4)) = List.replicate 16 4 :=
  ⟨by decide, by decide, by decide,
    claim_c8_amended (List.replicate 16 0) (List.replicate 16 3) (List.replicate 16 4)
      (by decide) (by decide) (by decide) (by decide) (by decide) (by decide)⟩

/-- Counterexample to C9 as stated: degree 1 is 1, not the 0-indexed
position 0 of the most significant set bit of 1. -/
theorem claim_c9_counterexample : degree 1 ≠ 0 := by decide

/-- Claim C9 as amended: degree 0 is -1, and for nonzero a, degree a is
the 1-indexed position of the most significant set bit, that is, the
unique positive d with 2 ^ (d - 1) ≤ a < 2 ^ d (one more than the
0-indexed MSB position the claim stated). -/
theorem claim_c9_amended (a : Nat) :
    (a = 0 → degree a = -1) ∧
    (a ≠ 0 → 1 ≤ degree a ∧
      2 ^ ((degree a).toNat - 1) ≤ a ∧ a < 2 ^ (degree a).toNat) := by
  constructor
  · intro h0
    rw [degree, if_pos h0]
  · intro h0
    rw [degree, if_neg h0]
    have h1 := bitsLen_pos a h0
    have h2 := bitsLen_ge a h0
    have h3 := bitsLen_lt a
    refine ⟨by exact_mod_cast h1, ?_, ?_⟩
    · simpa using h2
    · simpa using h3

/-- Witness for the amended C9 at a = 4 (degree 4 = 3, and
4 is between 2 ^ 2 and 2 ^ 3). -/
theorem claim_c9_amended_witness :
    (4 : Nat) ≠ 0 ∧ (1 ≤ degree 4 ∧
      2 ^ ((degree 4).toNat - 1) ≤ 4 ∧ 4 < 2 ^ (degree 4).toNat) :=
  ⟨by decide, (claim_c9_amended 4).2 (by decide)⟩

/-- Claim C10: for a nonzero divisor the Mod loop terminates (fuel
dividend + 1 suffices because the remainder loses at least one bit per
iteration) and returns a remainder that is zero or strictly shorter in
bits than the divisor; for divisor 0 and nonzero dividend the loop never
exits (no amount of fuel produces a result). -/
theorem claim_c10 (dividend divisor : Nat) :
    (divisor ≠ 0 → ∃ r, modFuel (dividend + 1) dividend divisor = some r ∧
      Mod dividend divisor = r ∧ (r = 0 ∨ bitsLen r < bitsLen divisor)) ∧
    (dividend ≠ 0 → ∀ fuel, modFuel fuel dividend 0 = none) := by
  constructor
  · intro hd
    obtain ⟨r, hsome, hprop⟩ := modFuel_some (bitsLen dividend) dividend divisor
      (dividend + 1) hd le_rfl (by have := bitsLen_le_self dividend; omega)
    refine ⟨r, hsome, ?_, hprop⟩
    rw [Mod, hsome]
    rfl
  · intro hdiv fuel
    exact modFuel_zero_divisor dividend hdiv fuel

/-- Witness for C10: the Rcon reduction 2 ^ 9 mod 0x11B terminates with a
byte-sized remainder, and the loop on divisor 0 never returns. -/
theorem claim_c10_witness :
    (∃ r, modFuel (512 + 1) 512 283 = some r ∧ Mod 512 283 = r ∧
      (r = 0 ∨ bitsLen r < bitsLen 283)) ∧
    (∀ fuel, modFuel fuel 7 0 = none) :=
  ⟨(claim_c10 512 283).1 (by decide), (claim_c10 7 0).2 (by decide)⟩

end AESGo
